import Mathlib

/-!
Shallow embedding of the witch-core discovery / ledger-synchronization /
peer-connection subsystem (`src/protocol/ledger.py`,
`src/network/broadcast_handlers.py`, `src/network/broadcast_discovery.py`,
`src/network/server_peer.py`, `src/utils/hash_utils.py`).

Python dicts that are used as ordered maps (the ledger node/protocol maps,
the discovered-node caches, the peer maps) are embedded as association
lists with Python's dict semantics: updating an existing key keeps its
original position, inserting a new key appends at the end.

Timestamps (`datetime` values serialized with `isoformat`) are embedded as
the type `Ts`: `missing` models an absent key, `iso t` models a string
that `datetime.fromisoformat` parses to the instant `t` (in seconds since
the Unix epoch), and `bad s` models a present but unparsable value, on
which `datetime.fromisoformat` raises (`ValueError`/`TypeError`).
-/

/-- A serialized timestamp field: absent, parsable (with its instant in
epoch seconds), or present but unparsable. -/
inductive Ts where
  | missing : Ts
  | iso (t : Int) : Ts
  | bad (s : String) : Ts
deriving Repr, DecidableEq

/-- The instant `2000-01-01T00:00:00` in epoch seconds: the result of
`datetime.fromisoformat` on the default string the ledger code supplies
for a missing `updated` key. -/
def ts2000 : Int := 946684800

/-- `datetime.fromisoformat(x.get(field, "2000-01-01T00:00:00"))`:
a missing key parses to `ts2000`, an unparsable value raises (`none`). -/
def fromIsoOrDefault : Ts → Option Int
  | .missing => some ts2000
  | .iso t => some t
  | .bad _ => none

/-- Whether a timestamp field would make `datetime.fromisoformat` raise. -/
def isBadTs : Ts → Bool
  | .bad _ => true
  | _ => false

/-- Total version of `fromIsoOrDefault` (meaningful on non-`bad` values). -/
def effTs : Ts → Int
  | .missing => ts2000
  | .iso t => t
  | .bad _ => 0

/-- Python truthiness of an optional string id: `None` and `""` are falsy. -/
def truthyId : Option String → Bool
  | none => false
  | some s => !s.isEmpty

/-- An insertion-ordered map (Python dict), embedded as an association list. -/
abbrev Omap (κ α : Type) := List (κ × α)

/-- Python `d[k] = v`: replace in place if the key exists, else append. -/
def omUpdate {κ α : Type} [DecidableEq κ] (k : κ) (v : α) : Omap κ α → Omap κ α
  | [] => [(k, v)]
  | p :: rest => if p.1 = k then (k, v) :: rest else p :: omUpdate k v rest

/-- Python `d.get(k)` / `k in d` lookup. -/
def omLookup {κ α : Type} [DecidableEq κ] (k : κ) : Omap κ α → Option α
  | [] => none
  | p :: rest => if p.1 = k then some p.2 else omLookup k rest

/-- Python `list(d.values())`. -/
def omValues {κ α : Type} (m : Omap κ α) : List α := m.map Prod.snd

/-- Python dict comprehension over a list, keyed by `key`. -/
def dictBy {α : Type} (key : α → Option String) (l : List α) : Omap (Option String) α :=
  l.foldl (fun m x => omUpdate (key x) x m) []

/-- One node entry of the ledger (`_create_node_entry` shape). -/
structure NodeEntry where
  id : Option String
  ip : String
  port : Int
  hash : String
  name : String
  protocols : List String
  updated : Ts
  status : String
deriving Repr, DecidableEq

/-- One protocol entry of the ledger (`register_protocol` shape). -/
structure ProtocolEntry where
  id : Option String
  name : String
  format : String
  options : List (String × String)
  created : Ts
  updated : Ts
deriving Repr, DecidableEq

/-- The ledger document (`_create_default_ledger` shape). -/
structure Ledger where
  nodes : List NodeEntry
  protocols : List ProtocolEntry
  version : Option String
  created_at : Ts
  updated_at : Ts
deriving Repr, DecidableEq

/-- `_create_default_ledger()` at instant `nowTs`. -/
def defaultLedger (nowTs : Int) : Ledger :=
  { nodes := []
  , protocols := []
  , version := some "1.0.0"
  , created_at := .iso nowTs
  , updated_at := .iso nowTs }

/-- The fixed relative path of the ledger document
(`_get_ledger_file_path`). -/
def ledgerPath : String := "tmp/ledger.json"

/-- A file-system side effect performed by the ledger store. -/
inductive FsOp where
  | write (path : String) (content : Ledger) : FsOp
  | rename (src dst : String) : FsOp
deriving Repr, DecidableEq

/-- Whether a trace of file operations ever writes `path` directly
(as opposed to writing a sibling temp file and renaming it over `path`). -/
def writesPathDirectly (path : String) (ops : List FsOp) : Bool :=
  ops.any fun op =>
    match op with
    | .write p _ => p = path
    | .rename _ _ => false

/-- Whether a trace contains a rename operation. -/
def hasRename (ops : List FsOp) : Bool :=
  ops.any fun op =>
    match op with
    | .write _ _ => false
    | .rename _ _ => true

/-- `save_ledger`: refresh `updated_at`, then write the document with a
single direct `open(path, "w")` write of the (whole) serialized document.
`writeOk` abstracts whether the write raises `IOError` (the only failure
the source catches); the function returns the success flag, the document
as mutated, and the trace of attempted file operations. -/
def saveLedger (nowTs : Int) (writeOk : Bool) (d : Ledger) : Bool × Ledger × List FsOp :=
  let d' := { d with updated_at := Ts.iso nowTs }
  (writeOk, d', [FsOp.write ledgerPath d'])

/-- `protocols or existing` (Python truthiness: `None` and `[]` are falsy). -/
def protocolsOr (arg : Option (List String)) (old : List String) : List String :=
  match arg with
  | none => old
  | some [] => old
  | some l => l

/-- The in-place update `register_node` applies to a matched node entry
(the `id` field is left untouched). -/
def updateNodeEntry (srcHash : String) (nowTs : Int) (ip : String) (port : Int)
    (name : String) (protocols : Option (List String)) (n : NodeEntry) : NodeEntry :=
  { n with
    ip := ip
    port := port
    hash := srcHash
    name := name
    protocols := protocolsOr protocols n.protocols
    updated := Ts.iso nowTs
    status := "active" }

/-- `_create_node_entry` (note `name or node_id`: an empty name falls back
to the node id). -/
def createNodeEntry (nodeIdStr : String) (ip : String) (port : Int) (srcHash : String)
    (name : String) (protocols : Option (List String)) (nowTs : Int) : NodeEntry :=
  { id := some nodeIdStr
  , ip := ip
  , port := port
  , hash := srcHash
  , name := if name = "" then nodeIdStr else name
  , protocols := protocolsOr protocols []
  , updated := Ts.iso nowTs
  , status := "active" }

/-- The match test of `register_node`'s existing-entry scan. -/
def nodeMatches (nodeIdStr : String) (ip : String) (port : Int) (n : NodeEntry) : Bool :=
  n.id = some nodeIdStr || (n.ip = ip && n.port = port)

/-- Update the first matching node in place, else append the new entry. -/
def upsertNodes (nodeIdStr : String) (ip : String) (port : Int) (srcHash : String)
    (name : String) (protocols : Option (List String)) (nowTs : Int) :
    List NodeEntry → List NodeEntry
  | [] => [createNodeEntry nodeIdStr ip port srcHash name protocols nowTs]
  | n :: ns =>
    if nodeMatches nodeIdStr ip port n then
      updateNodeEntry srcHash nowTs ip port name protocols n :: ns
    else
      n :: upsertNodes nodeIdStr ip port srcHash name protocols nowTs ns

/-- `register_node`. `srcHash` is the result of
`calculate_src_directory_hash()` and `genId` the freshly generated
`uuid.uuid4()` string used when no id is supplied; the working ledger `lg`
is the result of `load_ledger()` and the returned ledger is what
`save_ledger` persists (with `updated_at` refreshed). -/
def registerNode (srcHash : String) (nowTs : Int) (genId : String)
    (ip : String) (port : Int) (protocols : Option (List String))
    (name : Option String) (nodeId : Option String) (lg : Ledger) : String × Ledger :=
  let nodeIdStr := nodeId.getD genId
  let nameStr := name.getD ("node-" ++ ip ++ "-" ++ toString port)
  let nodes' := upsertNodes nodeIdStr ip port srcHash nameStr protocols nowTs lg.nodes
  (nodeIdStr, { lg with nodes := nodes', updated_at := Ts.iso nowTs })

/-- One step of `clean_inactive_nodes`: the node afterwards, and whether
this call assigned `status = "inactive"` to it (and counted it).
An unparsable `updated` raises inside the loop body, and the handler
marks the node inactive unconditionally; a parsable or defaulted
timestamp is marked only when strictly older than the threshold and the
node is currently `"active"` (the age test `age_hours > max_age_hours`
is `(nowTs - t) / 3600 > maxAgeHours`, i.e. `3600 * maxAgeHours < nowTs - t`). -/
def cleanNodeEntry (nowTs maxAgeHours : Int) (n : NodeEntry) : NodeEntry × Bool :=
  match n.updated with
  | .bad _ => ({ n with status := "inactive" }, true)
  | u =>
    if 3600 * maxAgeHours < nowTs - effTs u && n.status = "active" then
      ({ n with status := "inactive" }, true)
    else
      (n, false)

/-- `clean_inactive_nodes`: returns the count of nodes assigned inactive,
the resulting ledger, and whether `save_ledger` was called (it is called
exactly when the count is positive, and refreshes `updated_at`). -/
def cleanInactiveNodes (nowTs maxAgeHours : Int) (lg : Ledger) : Nat × Ledger × Bool :=
  if 0 < ((lg.nodes.map (cleanNodeEntry nowTs maxAgeHours)).filter Prod.snd).length then
    (((lg.nodes.map (cleanNodeEntry nowTs maxAgeHours)).filter Prod.snd).length,
      { lg with
        nodes := (lg.nodes.map (cleanNodeEntry nowTs maxAgeHours)).map Prod.fst
        updated_at := Ts.iso nowTs }, true)
  else
    (((lg.nodes.map (cleanNodeEntry nowTs maxAgeHours)).filter Prod.snd).length,
      { lg with nodes := (lg.nodes.map (cleanNodeEntry nowTs maxAgeHours)).map Prod.fst },
      false)

/-- The merge loop of `merge_ledgers`, generic over the entry type
(nodes and protocols run the same code). Remote entries with a falsy id
are skipped; a remote entry whose id is absent from the map is inserted;
otherwise the entry with the strictly newer `updated` wins (the local one
is kept on ties). `none` models `datetime.fromisoformat` raising on an
unparsable timestamp, which `merge_ledgers` does not catch. -/
def lwwMergeInto {α : Type} (key : α → Option String) (upd : α → Ts) :
    Omap (Option String) α → List α → Option (Omap (Option String) α)
  | m, [] => some m
  | m, r :: rs =>
    if truthyId (key r) then
      match omLookup (key r) m with
      | some l => do
        let lu ← fromIsoOrDefault (upd l)
        let ru ← fromIsoOrDefault (upd r)
        if lu < ru then
          lwwMergeInto key upd (omUpdate (key r) r m) rs
        else
          lwwMergeInto key upd m rs
      | none => lwwMergeInto key upd (omUpdate (key r) r m) rs
    else
      lwwMergeInto key upd m rs

/-- `merge_ledgers(remote_ledger)` where `lg` is the local ledger
(`load_ledger()`) and `rg` the remote one. `none` models the uncaught
`ValueError` on an unparsable `updated` timestamp. The merged result is
what `save_ledger` persists (with `updated_at` refreshed) and returns. -/
def mergeLedgers (nowTs : Int) (lg rg : Ledger) : Option Ledger := do
  let nmap ← lwwMergeInto NodeEntry.id NodeEntry.updated (dictBy NodeEntry.id lg.nodes) rg.nodes
  let pmap ← lwwMergeInto ProtocolEntry.id ProtocolEntry.updated
    (dictBy ProtocolEntry.id lg.protocols) rg.protocols
  some
    { nodes := omValues nmap
    , protocols := omValues pmap
    , version := some ((rg.version.getD (lg.version.getD "1.0.0")))
    , created_at := match lg.created_at with | .missing => .iso nowTs | c => c
    , updated_at := .iso nowTs }

/-- Modelled from the spec (for comparison with `mergeLedgers` only):
the claim's merge, in which an unparsable or missing `updated` timestamp
is treated as the Unix epoch so that entry always loses, and which never
raises. -/
def claimTsValue : Ts → Int
  | .iso t => t
  | _ => 0

/-- Modelled from the spec (for comparison with `mergeLedgers` only):
the claim's merge loop over one collection. -/
def claimMergeInto {α : Type} (key : α → Option String) (upd : α → Ts) :
    Omap (Option String) α → List α → Omap (Option String) α
  | m, [] => m
  | m, r :: rs =>
    if truthyId (key r) then
      match omLookup (key r) m with
      | some l =>
        if claimTsValue (upd l) < claimTsValue (upd r) then
          claimMergeInto key upd (omUpdate (key r) r m) rs
        else
          claimMergeInto key upd m rs
      | none => claimMergeInto key upd (omUpdate (key r) r m) rs
    else
      claimMergeInto key upd m rs

/-- Modelled from the spec (for comparison with `mergeLedgers` only):
the merge the claim describes, with epoch treatment of unparsable or
missing timestamps. -/
def claimMergeLedgers (nowTs : Int) (lg rg : Ledger) : Ledger :=
  { nodes := omValues (claimMergeInto NodeEntry.id NodeEntry.updated
      (dictBy NodeEntry.id lg.nodes) rg.nodes)
  , protocols := omValues (claimMergeInto ProtocolEntry.id ProtocolEntry.updated
      (dictBy ProtocolEntry.id lg.protocols) rg.protocols)
  , version := some ((rg.version.getD (lg.version.getD "1.0.0")))
  , created_at := match lg.created_at with | .missing => .iso nowTs | c => c
  , updated_at := .iso nowTs }

/-- First entry of a list whose key equals `k` (Python's scan of a
collection for an entry with a given id). -/
def findByKey {α : Type} (key : α → Option String) (k : Option String) (l : List α) : Option α :=
  l.find? fun v => key v = k

/-- One entry of the transient discovered-node cache
(`BroadcastDiscovery.discovered_nodes`). -/
structure DiscoveredInfo where
  id : Option String
  ip : String
  port : Int
  hash : Option String
  name : Option String
  protocols : List String
  last_seen : Ts
deriving Repr, DecidableEq

/-- A received `discovery` / `node_discovery` message (the envelope fields
`_handle_discovery_message` reads; `.get` on an absent key yields `none`). -/
structure DiscoveryMsg where
  node_id : Option String
  hash : Option String
  ip : Option String
  port : Int
  name : Option String
  protocols : List String
deriving Repr, DecidableEq

/-- A received `ledger_sync` message (the fields `_handle_ledger_sync`
reads; `ledger = none` models an absent or falsy `ledger` payload). -/
structure SyncMsg where
  hash : Option String
  ledger : Option Ledger
deriving Repr, DecidableEq

/-- The mutable state a broadcast-channel instance shares with the ledger
store: its transient discovered-node cache and the durable ledger. -/
structure BroadcastState where
  discoveredNodes : Omap (Option String) DiscoveredInfo
  ledger : Ledger
deriving Repr, DecidableEq

/-- `_handle_discovery_message`: drop the message when its `hash` differs
from this instance's own `src_hash`; otherwise upsert the transient cache
and call `register_node` (which persists the ledger). `addrIp` is the
UDP sender address used when the message carries no `ip` field, and
`genId` the uuid `register_node` would generate for a missing node id. -/
def handleDiscoveryMessage (srcHash : String) (nowTs : Int) (genId : String)
    (addrIp : String) (msg : DiscoveryMsg) (st : BroadcastState) : BroadcastState :=
  if msg.hash ≠ some srcHash then
    st
  else
    let nodeIp := msg.ip.getD addrIp
    let info : DiscoveredInfo :=
      { id := msg.node_id
      , ip := nodeIp
      , port := msg.port
      , hash := msg.hash
      , name := msg.name
      , protocols := msg.protocols
      , last_seen := Ts.iso nowTs }
    let cache' := omUpdate msg.node_id info st.discoveredNodes
    let ledger' := (registerNode srcHash nowTs genId nodeIp msg.port (some msg.protocols)
      msg.name msg.node_id st.ledger).2
    { discoveredNodes := cache', ledger := ledger' }

/-- `_handle_ledger_sync`: drop on hash mismatch or a missing ledger
payload; otherwise merge (an exception inside `merge_ledgers` is caught
and leaves the ledger untouched, since the merge raises before saving). -/
def handleLedgerSync (srcHash : String) (nowTs : Int) (msg : SyncMsg)
    (st : BroadcastState) : BroadcastState :=
  if msg.hash ≠ some srcHash then
    st
  else
    match msg.ledger with
    | none => st
    | some rg =>
      match mergeLedgers nowTs st.ledger rg with
      | some merged => { st with ledger := merged }
      | none => st

/-- Whether a cache entry is within the age limit of
`get_discovered_nodes` (`age_minutes <= max_age_minutes`, i.e.
`nowTs - t ≤ 60 * maxAgeMinutes`); an unparsable `last_seen` raises and
the entry is skipped, a missing one defaults to `2000-01-01T00:00:00`. -/
def freshInfo (nowTs maxAgeMinutes : Int) (info : DiscoveredInfo) : Bool :=
  match info.last_seen with
  | .bad _ => false
  | u => nowTs - effTs u ≤ 60 * maxAgeMinutes

/-- `BroadcastDiscovery.get_discovered_nodes(max_age_minutes)`: builds and
returns the filtered view `valid_nodes`; the cache itself is read but
never written, so the second component (the cache afterwards) is the
cache unchanged. -/
def getDiscoveredNodes (nowTs maxAgeMinutes : Int)
    (cache : Omap (Option String) DiscoveredInfo) :
    Omap (Option String) DiscoveredInfo × Omap (Option String) DiscoveredInfo :=
  (cache.filter fun e => freshInfo nowTs maxAgeMinutes e.2, cache)

/-- One discovered peer of the peer-connection manager
(`ServerPeer.discovered_peers` entry; `connected_at` is added when the
entry is copied into `connected_peers`). -/
structure PeerInfo where
  id : Option String
  ip : String
  port : Int
  name : String
  hash : String
  last_seen : Ts
  connected : Bool
  connected_at : Option Ts := none
deriving Repr, DecidableEq

/-- The peer-connection manager's mutable state (`ServerPeer`):
discovered peers, connected peers, and open client connections. -/
structure PeerState where
  discoveredPeers : Omap String PeerInfo
  connectedPeers : Omap String PeerInfo
  peerClients : List String
deriving Repr, DecidableEq

/-- `_send_peer_handshake`: sends `peer_handshake` and reports whether a
response arrived and its `type` is `peer_handshake_ack`. `response` maps
a peer id to the `type` field of that peer's reply (`none` models a
timeout, a missing reply, or an exception, all of which yield `false`). -/
def sendPeerHandshake (response : String → Option String) (peerId : String) : Bool :=
  match response peerId with
  | some t => t = "peer_handshake_ack"
  | none => false

/-- One iteration of `_connect_to_new_peers`' loop body for one
discovered peer: already-connected peers are skipped; on transport
connect success the peer is recorded in `peer_clients` and
`connected_peers` (with `connected_at` stamped) and a handshake is
performed, whose boolean result the caller discards; connect failure or
an exception leaves the state unchanged. -/
def connectStep (connectOk : String → Bool) (response : String → Option String)
    (nowTs : Int) (st : PeerState) (e : String × PeerInfo) : PeerState :=
  if (omLookup e.1 st.connectedPeers).isSome then
    st
  else if connectOk e.1 then
    let st' :=
      { st with
        peerClients := st.peerClients ++ [e.1]
        connectedPeers :=
          omUpdate e.1 { e.2 with connected_at := some (Ts.iso nowTs) } st.connectedPeers }
    let _handshakeResult := sendPeerHandshake response e.1
    st'
  else
    st

/-- `_connect_to_new_peers`: iterate the loop body over a snapshot of the
discovered-peers map (`list(self.discovered_peers.items())`). -/
def connectToNewPeers (connectOk : String → Bool) (response : String → Option String)
    (nowTs : Int) (st : PeerState) : PeerState :=
  st.discoveredPeers.foldl (connectStep connectOk response nowTs) st

/-- The `file_hashes` dict of `calculate_src_directory_hash`: per-file
digests keyed by relative path, in enumeration order, omitting files
whose hash computation failed (empty digest `[]`, the model of the `""`
returned by `calculate_file_hash` on an unreadable file). -/
def hashDict (hfile : List Nat → List Nat) (files : List (String × List Nat)) :
    Omap String (List Nat) :=
  files.foldl
    (fun m f => if hfile f.2 = [] then m else omUpdate f.1 (hfile f.2) m)
    []

/-- `sorted(file_hashes.keys())`. -/
def sortedPathsOf (m : Omap String (List Nat)) : List String :=
  List.insertionSort (· ≤ ·) (m.map Prod.fst)

/-- The `combined_hash` concatenation: the per-file digests joined in
sorted-path order. -/
def combinedOf (m : Omap String (List Nat)) : List Nat :=
  ((sortedPathsOf m).map fun p => (omLookup p m).getD []).flatten

/-- `calculate_src_directory_hash`, abstracted over the hash primitives:
`files` is the enumerated list of (relative path, file content) pairs,
`hfile` the per-file hash (`calculate_file_hash`) and `hfinal` the final
hash applied to the concatenation of the per-file digests in sorted-path
order. Returns the combined hash and the per-file digest map. -/
def srcDirectoryHash (hfile : List Nat → List Nat) (hfinal : List Nat → List Nat)
    (files : List (String × List Nat)) : List Nat × Omap String (List Nat) :=
  (hfinal (combinedOf (hashDict hfile files)), hashDict hfile files)

/-- Per-key unfolding of the merge loop: the entry the loop leaves at key
`k` after processing the remote entries `rs` on top of a map whose entry
at `k` is `base` (every remote entry with a falsy or different id leaves
`k` alone; the first one at `k` fills an absent entry, later ones win
exactly when strictly newer). -/
def mergeLookupSpec {α : Type} (key : α → Option String) (upd : α → Ts)
    (k : Option String) (base : Option α) (rs : List α) : Option α :=
  rs.foldl
    (fun acc r =>
      if truthyId (key r) && key r = k then
        match acc with
        | none => some r
        | some l => if effTs (upd l) < effTs (upd r) then some r else some l
      else acc)
    base

/-- The predicate characterizing the nodes `clean_inactive_nodes` assigns
`status = "inactive"` (and counts): unparsable `updated`, or strictly
older than the threshold while currently `"active"`. -/
def markedInactive (nowTs maxAgeHours : Int) (n : NodeEntry) : Bool :=
  match n.updated with
  | .bad _ => true
  | u => 3600 * maxAgeHours < nowTs - effTs u && n.status = "active"

/-- A local node entry whose `updated` key is missing (concrete input for
the merge counterexample). -/
def cexLocalNode : NodeEntry :=
  { id := some "n1"
  , ip := "10.0.0.1"
  , port := 1
  , hash := "h"
  , name := "n1"
  , protocols := []
  , updated := Ts.missing
  , status := "active" }

/-- A remote copy of the same node, carrying a parsable timestamp of
`1999-01-01T00:00:00` (strictly after the epoch, strictly before the
`2000-01-01T00:00:00` default) and a different port. -/
def cexRemoteNode : NodeEntry :=
  { cexLocalNode with port := 2, updated := Ts.iso 915148800 }

/-- The local ledger of the merge counterexample. -/
def cexLocalLedger : Ledger :=
  { nodes := [cexLocalNode]
  , protocols := []
  , version := some "1.0.0"
  , created_at := Ts.iso 0
  , updated_at := Ts.iso 0 }

/-- The remote ledger of the merge counterexample. -/
def cexRemoteLedger : Ledger :=
  { cexLocalLedger with nodes := [cexRemoteNode] }

/-- A discovered-peer entry used in the peer-connection counterexample. -/
def cexPeerInfo : PeerInfo :=
  { id := some "p2"
  , ip := "10.0.0.2"
  , port := 9000
  , name := "peer2"
  , hash := "h"
  , last_seen := Ts.iso 100
  , connected := false }

/-- A peer-manager state with one discovered, unconnected peer. -/
def cexPeerState : PeerState :=
  { discoveredPeers := [("p2", cexPeerInfo)]
  , connectedPeers := []
  , peerClients := [] }

/-- A node updated recently relative to the staleness-sweep witness. -/
def cexFreshNode : NodeEntry :=
  { cexLocalNode with id := some "n2", updated := Ts.iso 999999999 }

/-- A node whose `updated` timestamp is unparsable. -/
def cexBadNode : NodeEntry :=
  { cexLocalNode with id := some "n3", updated := Ts.bad "oops" }

/-- A three-node ledger for the staleness-sweep witness. -/
def c7Ledger : Ledger :=
  { nodes := [cexLocalNode, cexFreshNode, cexBadNode]
  , protocols := []
  , version := some "1.0.0"
  , created_at := Ts.iso 0
  , updated_at := Ts.iso 0 }

/-- A protocol entry for the merge-idempotence witness. -/
def c5Protocol : ProtocolEntry :=
  { id := some "p1"
  , name := "proto"
  , format := "json"
  , options := []
  , created := Ts.iso 1
  , updated := Ts.iso 2 }

/-- A one-node, one-protocol ledger for the merge-idempotence witness. -/
def c5Ledger : Ledger :=
  { nodes := [cexLocalNode]
  , protocols := [c5Protocol]
  , version := some "1.0.0"
  , created_at := Ts.iso 0
  , updated_at := Ts.iso 0 }

/-- Local node for the merge last-write-wins witness. -/
def c1NodeLocal : NodeEntry :=
  { cexLocalNode with id := some "x", port := 1, updated := Ts.iso 10 }

/-- Remote copy of the same node: newer timestamp, different port. -/
def c1NodeRemote : NodeEntry :=
  { c1NodeLocal with port := 2, updated := Ts.iso 20 }

/-- Remote-only node, absent from the local ledger. -/
def c1NodeFresh : NodeEntry :=
  { cexLocalNode with id := some "y", port := 7, updated := Ts.iso 5 }

/-- The local ledger of the merge last-write-wins witness. -/
def c1LocalLedger : Ledger :=
  { nodes := [c1NodeLocal]
  , protocols := []
  , version := some "1.0.0"
  , created_at := Ts.iso 0
  , updated_at := Ts.iso 0 }

/-- The remote ledger of the merge last-write-wins witness. -/
def c1RemoteLedger : Ledger :=
  { c1LocalLedger with nodes := [c1NodeRemote, c1NodeFresh] }

/-- A stale discovered-node cache entry (last seen at the epoch). -/
def cexStaleInfo : DiscoveredInfo :=
  { id := some "n9"
  , ip := "10.0.0.9"
  , port := 9
  , hash := some "h"
  , name := some "n9"
  , protocols := []
  , last_seen := Ts.iso 0 }


section OmapLemmas

variable {κ α : Type} [DecidableEq κ]

theorem omLookup_omUpdate_self (k : κ) (v : α) (m : Omap κ α) :
    omLookup k (omUpdate k v m) = some v := by
  induction m with
  | nil => simp [omUpdate, omLookup]
  | cons p rest ih =>
    simp only [omUpdate]
    by_cases h : p.1 = k
    · rw [if_pos h]
      simp [omLookup]
    · rw [if_neg h]
      simp [omLookup, h, ih]

theorem omLookup_omUpdate_ne {j k : κ} (h : j ≠ k) (v : α) (m : Omap κ α) :
    omLookup j (omUpdate k v m) = omLookup j m := by
  induction m with
  | nil => simp [omUpdate, omLookup, Ne.symm h]
  | cons p rest ih =>
    simp only [omUpdate]
    by_cases hp : p.1 = k
    · rw [if_pos hp]
      simp [omLookup, hp, Ne.symm h]
    · rw [if_neg hp]
      by_cases hj : p.1 = j
      · simp [omLookup, hj]
      · simp [omLookup, hj, ih]

theorem omLookup_some_mem {k : κ} {v : α} {m : Omap κ α}
    (h : omLookup k m = some v) : (k, v) ∈ m := by
  induction m with
  | nil => simp [omLookup] at h
  | cons p rest ih =>
    simp only [omLookup] at h
    by_cases hp : p.1 = k
    · rw [if_pos hp] at h
      injection h with h2
      exact List.mem_cons.mpr (Or.inl (by rw [← hp, ← h2]))
    · rw [if_neg hp] at h
      exact List.mem_cons.mpr (Or.inr (ih h))

theorem omLookup_mem {k : κ} {v : α} {m : Omap κ α}
    (hn : (m.map Prod.fst).Nodup) (hmem : (k, v) ∈ m) : omLookup k m = some v := by
  induction m with
  | nil => cases hmem
  | cons p rest ih =>
    simp only [List.map_cons, List.nodup_cons] at hn
    rcases List.mem_cons.mp hmem with h | h
    · subst h
      simp [omLookup]
    · have hk : p.1 ≠ k := by
        intro hh
        apply hn.1
        rw [hh]
        exact List.mem_map.mpr ⟨(k, v), h, rfl⟩
      simp [omLookup, hk, ih hn.2 h]

theorem omLookup_none_iff {k : κ} {m : Omap κ α} :
    omLookup k m = none ↔ k ∉ m.map Prod.fst := by
  induction m with
  | nil => simp [omLookup]
  | cons p rest ih =>
    by_cases hp : p.1 = k
    · simp [omLookup, hp]
    · simp [omLookup, hp, ih, Ne.symm hp]

theorem mem_omUpdate {p : κ × α} {k : κ} {v : α} {m : Omap κ α}
    (h : p ∈ omUpdate k v m) : p = (k, v) ∨ p ∈ m := by
  induction m with
  | nil => simpa [omUpdate] using h
  | cons q rest ih =>
    simp only [omUpdate] at h
    by_cases hq : q.1 = k
    · rw [if_pos hq] at h
      rcases List.mem_cons.mp h with h1 | h1
      · exact Or.inl h1
      · exact Or.inr (List.mem_cons.mpr (Or.inr h1))
    · rw [if_neg hq] at h
      rcases List.mem_cons.mp h with h1 | h1
      · exact Or.inr (List.mem_cons.mpr (Or.inl h1))
      · rcases ih h1 with h2 | h2
        · exact Or.inl h2
        · exact Or.inr (List.mem_cons.mpr (Or.inr h2))

theorem mem_map_fst_omUpdate {j k : κ} {v : α} {m : Omap κ α} :
    j ∈ (omUpdate k v m).map Prod.fst ↔ j = k ∨ j ∈ m.map Prod.fst := by
  induction m with
  | nil => simp [omUpdate]
  | cons p rest ih =>
    simp only [omUpdate]
    by_cases hp : p.1 = k
    · rw [if_pos hp]
      subst hp
      simp
    · rw [if_neg hp]
      simp only [List.map_cons, List.mem_cons, ih]
      tauto

theorem nodup_keys_omUpdate {k : κ} {v : α} {m : Omap κ α}
    (h : (m.map Prod.fst).Nodup) : ((omUpdate k v m).map Prod.fst).Nodup := by
  induction m with
  | nil => simp [omUpdate]
  | cons p rest ih =>
    simp only [List.map_cons, List.nodup_cons] at h
    simp only [omUpdate]
    by_cases hp : p.1 = k
    · rw [if_pos hp]
      subst hp
      simp only [List.map_cons, List.nodup_cons]
      exact ⟨h.1, h.2⟩
    · rw [if_neg hp]
      simp only [List.map_cons, List.nodup_cons]
      refine ⟨?_, ih h.2⟩
      intro hmem
      rcases mem_map_fst_omUpdate.mp hmem with h' | h'
      · exact hp h'
      · exact h.1 h'

theorem omUpdate_eq_append {k : κ} {m : Omap κ α} (h : k ∉ m.map Prod.fst) (v : α) :
    omUpdate k v m = m ++ [(k, v)] := by
  induction m with
  | nil => simp [omUpdate]
  | cons p rest ih =>
    simp only [List.map_cons, List.mem_cons] at h
    push_neg at h
    simp only [omUpdate]
    rw [if_neg (Ne.symm h.1), ih h.2]
    simp

theorem omLookup_perm {m₁ m₂ : Omap κ α} (hp : List.Perm m₁ m₂)
    (hn : (m₁.map Prod.fst).Nodup) (k : κ) : omLookup k m₁ = omLookup k m₂ := by
  have hn₂ : (m₂.map Prod.fst).Nodup := ((hp.map Prod.fst).nodup_iff).mp hn
  cases h₁ : omLookup k m₁ with
  | some v => exact (omLookup_mem hn₂ (hp.mem_iff.mp (omLookup_some_mem h₁))).symm
  | none =>
    cases h₂ : omLookup k m₂ with
    | some v =>
      exact absurd (List.mem_map.mpr ⟨(k, v), hp.mem_iff.mpr (omLookup_some_mem h₂), rfl⟩)
        (omLookup_none_iff.mp h₁)
    | none => rfl

theorem omLookup_append_skip {k : κ} {xs : Omap κ α} (h : k ∉ xs.map Prod.fst)
    (ys : Omap κ α) : omLookup k (xs ++ ys) = omLookup k ys := by
  induction xs with
  | nil => simp
  | cons p rest ih =>
    simp only [List.map_cons, List.mem_cons] at h
    push_neg at h
    simp only [List.cons_append, omLookup]
    rw [if_neg (Ne.symm h.1)]
    exact ih h.2

theorem omLookup_middle_ne {q p : κ} (h : q ≠ p) (xs ys : Omap κ α) (a b : α) :
    omLookup q (xs ++ (p, a) :: ys) = omLookup q (xs ++ (p, b) :: ys) := by
  induction xs with
  | nil => simp [omLookup, Ne.symm h]
  | cons r rest ih =>
    simp only [List.cons_append, omLookup]
    by_cases hq : r.1 = q
    · rw [if_pos hq, if_pos hq]
    · rw [if_neg hq, if_neg hq]
      exact ih

end OmapLemmas

section DictLemmas

variable {α : Type}

theorem foldl_omUpdate_fresh (key : α → Option String) :
    ∀ (l : List α) (m : Omap (Option String) α),
      (l.map key).Nodup → (∀ x ∈ l, key x ∉ m.map Prod.fst) →
      l.foldl (fun m x => omUpdate (key x) x m) m = m ++ l.map (fun x => (key x, x)) := by
  intro l
  induction l with
  | nil =>
    intro m _ _
    simp
  | cons x xs ih =>
    intro m hn hfresh
    simp only [List.map_cons, List.nodup_cons] at hn
    simp only [List.foldl_cons]
    rw [omUpdate_eq_append (hfresh x (List.mem_cons_self x xs)) x]
    rw [ih (m ++ [(key x, x)]) hn.2 ?_]
    · simp
    · intro y hy
      simp only [List.map_append, List.mem_append, List.map_cons, List.map_nil,
        List.mem_singleton]
      push_neg
      refine ⟨hfresh y (List.mem_cons.mpr (Or.inr hy)), ?_⟩
      intro hh
      apply hn.1
      rw [← hh]
      exact List.mem_map.mpr ⟨y, hy, rfl⟩

theorem dictBy_eq_map (key : α → Option String) {l : List α} (hn : (l.map key).Nodup) :
    dictBy key l = l.map fun x => (key x, x) := by
  simpa [dictBy] using foldl_omUpdate_fresh key l [] hn (by simp)

theorem keys_dictBy (key : α → Option String) {l : List α} (hn : (l.map key).Nodup) :
    (dictBy key l).map Prod.fst = l.map key := by
  rw [dictBy_eq_map key hn]
  simp

theorem omValues_dictBy (key : α → Option String) {l : List α} (hn : (l.map key).Nodup) :
    omValues (dictBy key l) = l := by
  rw [dictBy_eq_map key hn]
  clear hn
  induction l with
  | nil => rfl
  | cons x xs ih => simpa [omValues] using ih

theorem mem_dictBy (key : α → Option String) {l : List α} (hn : (l.map key).Nodup)
    {p : Option String × α} (hp : p ∈ dictBy key l) : p.1 = key p.2 ∧ p.2 ∈ l := by
  rw [dictBy_eq_map key hn] at hp
  rcases List.mem_map.mp hp with ⟨x, hx, hxe⟩
  subst hxe
  exact ⟨rfl, hx⟩

theorem omLookup_dictBy_self (key : α → Option String) {l : List α}
    (hn : (l.map key).Nodup) {x : α} (hx : x ∈ l) :
    omLookup (key x) (dictBy key l) = some x := by
  apply omLookup_mem
  · rw [keys_dictBy key hn]
    exact hn
  · rw [dictBy_eq_map key hn]
    exact List.mem_map.mpr ⟨x, hx, rfl⟩

theorem fromIso_eq_eff {u : Ts} (h : isBadTs u = false) :
    fromIsoOrDefault u = some (effTs u) := by
  cases u with
  | missing => rfl
  | iso t => rfl
  | bad s => simp [isBadTs] at h

theorem findByKey_omValues (key : α → Option String) {m : Omap (Option String) α}
    (hcoh : ∀ p ∈ m, p.1 = key p.2) (k : Option String) :
    findByKey key k (omValues m) = omLookup k m := by
  induction m with
  | nil => rfl
  | cons p rest ih =>
    have hc := hcoh p (List.mem_cons_self p rest)
    simp only [omValues, List.map_cons, findByKey, List.find?_cons, omLookup]
    by_cases hk : p.1 = k
    · have hd : (decide (key p.2 = k)) = true := by
        rw [← hc, hk]
        simp
      simp [hd, hk]
    · have hd : (decide (key p.2 = k)) = false := by
        rw [← hc]
        simpa using hk
      simp only [hd, if_neg hk]
      have hrest := ih fun q hq => hcoh q (List.mem_cons.mpr (Or.inr hq))
      simpa [findByKey, omValues] using hrest

end DictLemmas

section MergeLemmas

variable {α : Type}

theorem mergeLookupSpec_cons (key : α → Option String) (upd : α → Ts)
    (k : Option String) (base : Option α) (r : α) (rs : List α) :
    mergeLookupSpec key upd k base (r :: rs) =
      mergeLookupSpec key upd k
        (if truthyId (key r) && key r = k then
          match base with
          | none => some r
          | some l => if effTs (upd l) < effTs (upd r) then some r else some l
        else base) rs := rfl

theorem mergeLookupSpec_no_touch (key : α → Option String) (upd : α → Ts)
    {k : Option String} :
    ∀ {rs : List α}, (∀ x ∈ rs, truthyId (key x) = false ∨ key x ≠ k) →
      ∀ base, mergeLookupSpec key upd k base rs = base := by
  intro rs
  induction rs with
  | nil =>
    intro _ base
    rfl
  | cons r rs ih =>
    intro h base
    rw [mergeLookupSpec_cons]
    have hcond : (truthyId (key r) && decide (key r = k)) = false := by
      rcases h r (List.mem_cons_self r rs) with h1 | h1
      · simp [h1]
      · simp [h1]
    simp only [hcond, Bool.false_eq_true, if_false]
    exact ih (fun x hx => h x (List.mem_cons.mpr (Or.inr hx))) base

theorem mergeLookupSpec_single (key : α → Option String) (upd : α → Ts)
    {k : Option String} {A B : List α} {r : α}
    (hA : ∀ x ∈ A, truthyId (key x) = false ∨ key x ≠ k)
    (hB : ∀ x ∈ B, truthyId (key x) = false ∨ key x ≠ k)
    (ht : truthyId (key r) = true) (hk : key r = k) (base : Option α) :
    mergeLookupSpec key upd k base (A ++ r :: B) =
      (match base with
      | none => some r
      | some l => if effTs (upd l) < effTs (upd r) then some r else some l) := by
  have h1 : mergeLookupSpec key upd k base (A ++ r :: B) =
      mergeLookupSpec key upd k (mergeLookupSpec key upd k base A) (r :: B) := by
    simp [mergeLookupSpec, List.foldl_append]
  rw [h1, mergeLookupSpec_no_touch key upd hA base, mergeLookupSpec_cons]
  have hcond : (truthyId (key r) && decide (key r = k)) = true := by
    rw [hk] at ht
    simp [ht, hk]
  simp only [hcond, if_true]
  exact mergeLookupSpec_no_touch key upd hB _

theorem lwwMergeInto_char (key : α → Option String) (upd : α → Ts) :
    ∀ (rs : List α) (m : Omap (Option String) α),
      (∀ p ∈ m, isBadTs (upd p.2) = false) →
      (∀ r ∈ rs, isBadTs (upd r) = false) →
      (∀ p ∈ m, p.1 = key p.2) →
      ∃ m', lwwMergeInto key upd m rs = some m' ∧
        (∀ p ∈ m', p.1 = key p.2) ∧
        (∀ k, omLookup k m' = mergeLookupSpec key upd k (omLookup k m) rs) := by
  intro rs
  induction rs with
  | nil =>
    intro m _ _ hcoh
    exact ⟨m, rfl, hcoh, fun k => rfl⟩
  | cons r rs ih =>
    intro m hm hr hcoh
    have hrb : isBadTs (upd r) = false := hr r (List.mem_cons_self r rs)
    have hrs : ∀ x ∈ rs, isBadTs (upd x) = false :=
      fun x hx => hr x (List.mem_cons.mpr (Or.inr hx))
    by_cases ht : truthyId (key r) = true
    · cases hl : omLookup (key r) m with
      | some l =>
        have hlb : isBadTs (upd l) = false := hm (key r, l) (omLookup_some_mem hl)
        by_cases hlt : effTs (upd l) < effTs (upd r)
        · have hstep : lwwMergeInto key upd m (r :: rs) =
              lwwMergeInto key upd (omUpdate (key r) r m) rs := by
            simp only [lwwMergeInto, ht, if_true, hl]
            rw [fromIso_eq_eff hlb, fromIso_eq_eff hrb]
            simp [hlt]
          obtain ⟨m', he, hcoh', hspec⟩ := ih (omUpdate (key r) r m)
            (fun p hp => by
              rcases mem_omUpdate hp with h | h
              · rw [h]
                exact hrb
              · exact hm p h)
            hrs
            (fun p hp => by
              rcases mem_omUpdate hp with h | h
              · rw [h]
              · exact hcoh p h)
          refine ⟨m', hstep.trans he, hcoh', ?_⟩
          intro k
          rw [hspec k, mergeLookupSpec_cons]
          congr 1
          by_cases hk : key r = k
          · subst hk
            rw [omLookup_omUpdate_self, hl]
            simp [ht, hlt]
          · rw [omLookup_omUpdate_ne (Ne.symm hk)]
            simp [hk]
        · have hstep : lwwMergeInto key upd m (r :: rs) = lwwMergeInto key upd m rs := by
            simp only [lwwMergeInto, ht, if_true, hl]
            rw [fromIso_eq_eff hlb, fromIso_eq_eff hrb]
            simp [hlt]
          obtain ⟨m', he, hcoh', hspec⟩ := ih m hm hrs hcoh
          refine ⟨m', hstep.trans he, hcoh', ?_⟩
          intro k
          rw [hspec k, mergeLookupSpec_cons]
          congr 1
          by_cases hk : key r = k
          · subst hk
            rw [hl]
            simp [ht, hlt]
          · simp [hk]
      | none =>
        have hstep : lwwMergeInto key upd m (r :: rs) =
            lwwMergeInto key upd (omUpdate (key r) r m) rs := by
          simp only [lwwMergeInto, ht, if_true, hl]
        obtain ⟨m', he, hcoh', hspec⟩ := ih (omUpdate (key r) r m)
          (fun p hp => by
            rcases mem_omUpdate hp with h | h
            · rw [h]
              exact hrb
            · exact hm p h)
          hrs
          (fun p hp => by
            rcases mem_omUpdate hp with h | h
            · rw [h]
            · exact hcoh p h)
        refine ⟨m', hstep.trans he, hcoh', ?_⟩
        intro k
        rw [hspec k, mergeLookupSpec_cons]
        congr 1
        by_cases hk : key r = k
        · subst hk
          rw [omLookup_omUpdate_self, hl]
          simp [ht]
        · rw [omLookup_omUpdate_ne (Ne.symm hk)]
          simp [hk]
    · simp only [Bool.not_eq_true] at ht
      have hstep : lwwMergeInto key upd m (r :: rs) = lwwMergeInto key upd m rs := by
        simp only [lwwMergeInto, ht]
        simp
      obtain ⟨m', he, hcoh', hspec⟩ := ih m hm hrs hcoh
      refine ⟨m', hstep.trans he, hcoh', ?_⟩
      intro k
      rw [hspec k, mergeLookupSpec_cons]
      congr 1
      simp [ht]

theorem lwwMergeInto_self (key : α → Option String) (upd : α → Ts) :
    ∀ (rs : List α) (m : Omap (Option String) α),
      (∀ r ∈ rs, isBadTs (upd r) = false) →
      (∀ r ∈ rs, truthyId (key r) = true → omLookup (key r) m = some r) →
      lwwMergeInto key upd m rs = some m := by
  intro rs
  induction rs with
  | nil =>
    intro m _ _
    rfl
  | cons r rs ih =>
    intro m hb hself
    have hrb := hb r (List.mem_cons_self r rs)
    have htail := ih m (fun x hx => hb x (List.mem_cons.mpr (Or.inr hx)))
      (fun x hx hxt => hself x (List.mem_cons.mpr (Or.inr hx)) hxt)
    by_cases ht : truthyId (key r) = true
    · have hl := hself r (List.mem_cons_self r rs) ht
      simp only [lwwMergeInto, ht, if_true, hl]
      rw [fromIso_eq_eff hrb]
      simpa using htail
    · simp only [Bool.not_eq_true] at ht
      simp only [lwwMergeInto, ht]
      simpa using htail

end MergeLemmas

section UpsertLemmas

theorem updateNodeEntry_id (srcHash : String) (nowTs : Int) (ip : String) (port : Int)
    (name : String) (protocols : Option (List String)) (n : NodeEntry) :
    (updateNodeEntry srcHash nowTs ip port name protocols n).id = n.id := rfl

theorem upsertNodes_no_match (i : String) (ip : String) (port : Int) (h nm : String)
    (ps : Option (List String)) (t : Int) :
    ∀ {ns : List NodeEntry}, (∀ n ∈ ns, nodeMatches i ip port n = false) →
      upsertNodes i ip port h nm ps t ns = ns ++ [createNodeEntry i ip port h nm ps t] := by
  intro ns
  induction ns with
  | nil =>
    intro _
    rfl
  | cons n ns ih =>
    intro hno
    have h0 := hno n (List.mem_cons_self n ns)
    simp only [upsertNodes, h0, Bool.false_eq_true, if_false, List.cons_append]
    rw [ih fun x hx => hno x (List.mem_cons.mpr (Or.inr hx))]

theorem upsertNodes_match_split (i : String) (ip : String) (port : Int) (h nm : String)
    (ps : Option (List String)) (t : Int) :
    ∀ {pre : List NodeEntry} {n : NodeEntry} (post : List NodeEntry),
      (∀ m ∈ pre, nodeMatches i ip port m = false) →
      nodeMatches i ip port n = true →
      upsertNodes i ip port h nm ps t (pre ++ n :: post) =
        pre ++ updateNodeEntry h t ip port nm ps n :: post := by
  intro pre
  induction pre with
  | nil =>
    intro n post _ hyes
    simp [upsertNodes, hyes]
  | cons m pre ih =>
    intro n post hno hyes
    have h0 := hno m (List.mem_cons_self m pre)
    simp only [List.cons_append, upsertNodes, h0, Bool.false_eq_true, if_false]
    congr 1
    exact ih post (fun x hx => hno x (List.mem_cons.mpr (Or.inr hx))) hyes

theorem mem_ids_upsertNodes {i : String} {ip : String} {port : Int} {h nm : String}
    {ps : Option (List String)} {t : Int} :
    ∀ {ns : List NodeEntry} {x : Option String},
      x ∈ (upsertNodes i ip port h nm ps t ns).map NodeEntry.id →
      x ∈ ns.map NodeEntry.id ∨ x = some i := by
  intro ns
  induction ns with
  | nil =>
    intro x hx
    simp [upsertNodes, createNodeEntry] at hx
    exact Or.inr hx
  | cons n ns ih =>
    intro x hx
    cases hm : nodeMatches i ip port n with
    | true =>
      simp only [upsertNodes, hm, if_true, List.map_cons, List.mem_cons,
        updateNodeEntry_id] at hx
      rcases hx with hx | hx
      · exact Or.inl (List.mem_cons.mpr (Or.inl hx))
      · exact Or.inl (List.mem_cons.mpr (Or.inr hx))
    | false =>
      simp only [upsertNodes, hm, Bool.false_eq_true, if_false, List.map_cons,
        List.mem_cons] at hx
      rcases hx with hx | hx
      · exact Or.inl (List.mem_cons.mpr (Or.inl hx))
      · rcases ih hx with h' | h'
        · exact Or.inl (List.mem_cons.mpr (Or.inr h'))
        · exact Or.inr h'

theorem nodup_ids_upsertNodes {i : String} {ip : String} {port : Int} {h nm : String}
    {ps : Option (List String)} {t : Int} :
    ∀ {ns : List NodeEntry}, (ns.map NodeEntry.id).Nodup →
      ((upsertNodes i ip port h nm ps t ns).map NodeEntry.id).Nodup := by
  intro ns
  induction ns with
  | nil =>
    intro _
    simp [upsertNodes]
  | cons n ns ih =>
    intro hn
    simp only [List.map_cons, List.nodup_cons] at hn
    cases hm : nodeMatches i ip port n with
    | true =>
      simp only [upsertNodes, hm, if_true, List.map_cons, List.nodup_cons,
        updateNodeEntry_id]
      exact ⟨hn.1, hn.2⟩
    | false =>
      simp only [upsertNodes, hm, Bool.false_eq_true, if_false, List.map_cons,
        List.nodup_cons]
      refine ⟨?_, ih hn.2⟩
      intro hmem
      rcases mem_ids_upsertNodes hmem with h' | h'
      · exact hn.1 h'
      · rw [nodeMatches] at hm
        simp [h'] at hm

theorem length_upsertNodes_match {i : String} {ip : String} {port : Int} {h nm : String}
    {ps : Option (List String)} {t : Int} :
    ∀ {ns : List NodeEntry}, (∃ n ∈ ns, nodeMatches i ip port n = true) →
      (upsertNodes i ip port h nm ps t ns).length = ns.length := by
  intro ns
  induction ns with
  | nil =>
    rintro ⟨n, hn, _⟩
    cases hn
  | cons n ns ih =>
    rintro ⟨x, hx, hxm⟩
    cases hm : nodeMatches i ip port n with
    | true => simp [upsertNodes, hm]
    | false =>
      have hex : ∃ y ∈ ns, nodeMatches i ip port y = true := by
        rcases List.mem_cons.mp hx with h1 | h1
        · rw [h1] at hxm
          rw [hxm] at hm
          cases hm
        · exact ⟨x, h1, hxm⟩
      simp [upsertNodes, hm, ih hex]

end UpsertLemmas

section ConnectLemmas

theorem connect_fold_mem (connectOk : String → Bool) (response : String → Option String)
    (nowTs : Int) :
    ∀ (l : List (String × PeerInfo)) (st : PeerState) (pid : String),
      (pid ∈ ((l.foldl (connectStep connectOk response nowTs) st).connectedPeers).map Prod.fst ↔
        pid ∈ st.connectedPeers.map Prod.fst ∨
          (connectOk pid = true ∧ pid ∈ l.map Prod.fst)) := by
  intro l
  induction l with
  | nil =>
    intro st pid
    simp
  | cons e l ih =>
    intro st pid
    simp only [List.foldl_cons, List.map_cons, List.mem_cons]
    rw [ih]
    cases hc : omLookup e.1 st.connectedPeers with
    | some v =>
      have hmem : e.1 ∈ st.connectedPeers.map Prod.fst :=
        List.mem_map.mpr ⟨(e.1, v), omLookup_some_mem hc, rfl⟩
      simp only [connectStep, hc, Option.isSome_some, if_true]
      constructor
      · intro hh
        rcases hh with hh | hh
        · exact Or.inl hh
        · exact Or.inr ⟨hh.1, Or.inr hh.2⟩
      · intro hh
        rcases hh with hh | ⟨hok, hh⟩
        · exact Or.inl hh
        · rcases hh with hh | hh
          · exact Or.inl (hh ▸ hmem)
          · exact Or.inr ⟨hok, hh⟩
    | none =>
      cases hok : connectOk e.1 with
      | true =>
        simp only [connectStep, hc, Option.isSome_none, Bool.false_eq_true, if_false,
          hok, if_true]
        constructor
        · intro hh
          rcases hh with hh | hh
          · rcases mem_map_fst_omUpdate.mp hh with h' | h'
            · exact Or.inr ⟨h' ▸ hok, Or.inl h'⟩
            · exact Or.inl h'
          · exact Or.inr ⟨hh.1, Or.inr hh.2⟩
        · intro hh
          rcases hh with hh | ⟨hok', hh⟩
          · exact Or.inl (mem_map_fst_omUpdate.mpr (Or.inr hh))
          · rcases hh with hh | hh
            · exact Or.inl (mem_map_fst_omUpdate.mpr (Or.inl hh))
            · exact Or.inr ⟨hok', hh⟩
      | false =>
        simp only [connectStep, hc, Option.isSome_none, Bool.false_eq_true, if_false,
          hok]
        constructor
        · intro hh
          rcases hh with hh | hh
          · exact Or.inl hh
          · exact Or.inr ⟨hh.1, Or.inr hh.2⟩
        · intro hh
          rcases hh with hh | ⟨hok', hh⟩
          · exact Or.inl hh
          · rcases hh with hh | hh
            · rw [hh] at hok'
              rw [hok'] at hok
              cases hok
            · exact Or.inr ⟨hok', hh⟩

end ConnectLemmas

section HashLemmas

theorem hashDict_go (hfile : List Nat → List Nat) :
    ∀ (files : List (String × List Nat)) (m : Omap String (List Nat)),
      (files.map Prod.fst).Nodup →
      (∀ f ∈ files, f.1 ∉ m.map Prod.fst) →
      files.foldl (fun m f => if hfile f.2 = [] then m else omUpdate f.1 (hfile f.2) m) m =
        m ++ files.filterMap fun f =>
          if hfile f.2 = [] then none else some (f.1, hfile f.2) := by
  intro files
  induction files with
  | nil =>
    intro m _ _
    simp
  | cons f fs ih =>
    intro m hn hfresh
    simp only [List.map_cons, List.nodup_cons] at hn
    by_cases hz : hfile f.2 = []
    · simp only [List.foldl_cons, List.filterMap_cons, hz, if_pos, if_true]
      exact ih m hn.2 fun g hg => hfresh g (List.mem_cons.mpr (Or.inr hg))
    · simp only [List.foldl_cons, List.filterMap_cons, hz, if_neg, if_false]
      rw [omUpdate_eq_append (hfresh f (List.mem_cons_self f fs)) (hfile f.2)]
      rw [ih (m ++ [(f.1, hfile f.2)]) hn.2 ?_]
      · simp
      · intro g hg
        simp only [List.map_append, List.mem_append, List.map_cons, List.map_nil,
          List.mem_singleton]
        push_neg
        refine ⟨hfresh g (List.mem_cons.mpr (Or.inr hg)), ?_⟩
        intro hh
        apply hn.1
        rw [← hh]
        exact List.mem_map.mpr ⟨g, hg, rfl⟩

theorem hashDict_eq_filterMap (hfile : List Nat → List Nat)
    {files : List (String × List Nat)} (hn : (files.map Prod.fst).Nodup) :
    hashDict hfile files =
      files.filterMap fun f => if hfile f.2 = [] then none else some (f.1, hfile f.2) := by
  simpa [hashDict] using hashDict_go hfile files [] hn (by simp)

theorem mem_keys_hash_filterMap {hfile : List Nat → List Nat} :
    ∀ {files : List (String × List Nat)} {x : String},
      x ∈ (files.filterMap fun f =>
        if hfile f.2 = [] then none else some (f.1, hfile f.2)).map Prod.fst →
      x ∈ files.map Prod.fst := by
  intro files
  induction files with
  | nil =>
    intro x hx
    simp at hx
  | cons f fs ih =>
    intro x hx
    by_cases hz : hfile f.2 = []
    · simp only [List.filterMap_cons, hz, if_pos, if_true] at hx
      exact List.mem_cons.mpr (Or.inr (ih hx))
    · simp only [List.filterMap_cons, hz, if_neg, if_false, List.map_cons,
        List.mem_cons] at hx
      rcases hx with hx | hx
      · exact List.mem_cons.mpr (Or.inl hx)
      · exact List.mem_cons.mpr (Or.inr (ih hx))

theorem nodup_keys_hash_filterMap {hfile : List Nat → List Nat} :
    ∀ {files : List (String × List Nat)}, (files.map Prod.fst).Nodup →
      ((files.filterMap fun f =>
        if hfile f.2 = [] then none else some (f.1, hfile f.2)).map Prod.fst).Nodup := by
  intro files
  induction files with
  | nil =>
    intro _
    simp
  | cons f fs ih =>
    intro hn
    simp only [List.map_cons, List.nodup_cons] at hn
    by_cases hz : hfile f.2 = []
    · simp only [List.filterMap_cons, hz, if_pos, if_true]
      exact ih hn.2
    · simp only [List.filterMap_cons, hz, if_neg, if_false, List.map_cons,
        List.nodup_cons]
      exact ⟨fun hmem => hn.1 (mem_keys_hash_filterMap hmem), ih hn.2⟩

theorem sortedPathsOf_perm {m₁ m₂ : Omap String (List Nat)} (hp : List.Perm m₁ m₂) :
    sortedPathsOf m₁ = sortedPathsOf m₂ := by
  exact List.eq_of_perm_of_sorted
    ((List.perm_insertionSort (· ≤ ·) (m₁.map Prod.fst)).trans
      ((hp.map Prod.fst).trans (List.perm_insertionSort (· ≤ ·) (m₂.map Prod.fst)).symm))
    (List.sorted_insertionSort (· ≤ ·) (m₁.map Prod.fst))
    (List.sorted_insertionSort (· ≤ ·) (m₂.map Prod.fst))

theorem combinedOf_perm {m₁ m₂ : Omap String (List Nat)} (hp : List.Perm m₁ m₂)
    (hn : (m₁.map Prod.fst).Nodup) : combinedOf m₁ = combinedOf m₂ := by
  unfold combinedOf
  rw [sortedPathsOf_perm hp]
  congr 1
  apply List.map_congr_left
  intro p _
  rw [omLookup_perm hp hn p]

end HashLemmas

/-- Claim C3, counterexample: `save_ledger` writes the ledger document
directly to the ledger path (a single `open(path, "w")` write) — its
operation trace writes the final path directly and contains no rename, so
the claimed write-temp-then-atomically-rename discipline is absent. -/
theorem c3_save_counterexample :
    writesPathDirectly ledgerPath (saveLedger 5 true (defaultLedger 0)).2.2 = true ∧
    hasRename (saveLedger 5 true (defaultLedger 0)).2.2 = false := by
  constructor <;> rfl

/-- Claim C3 (amended): `save_ledger` refreshes `updated_at`, leaves the
rest of the document intact, returns false exactly when the write raises
`IOError` (which it catches), and performs one direct in-place write of the
ledger path — no sibling temp file and no atomic rename, so a concurrent
reader may observe a partially written document. -/
theorem c3_save_direct_write (nowTs : Int) (writeOk : Bool) (d : Ledger) :
    (saveLedger nowTs writeOk d).1 = writeOk ∧
    (saveLedger nowTs writeOk d).2.1.updated_at = Ts.iso nowTs ∧
    (saveLedger nowTs writeOk d).2.1.nodes = d.nodes ∧
    (saveLedger nowTs writeOk d).2.1.protocols = d.protocols ∧
    (saveLedger nowTs writeOk d).2.2 =
      [FsOp.write ledgerPath (saveLedger nowTs writeOk d).2.1] ∧
    writesPathDirectly ledgerPath (saveLedger nowTs writeOk d).2.2 = true ∧
    hasRename (saveLedger nowTs writeOk d).2.2 = false := by
  refine ⟨rfl, rfl, rfl, rfl, rfl, ?_, rfl⟩
  simp [writesPathDirectly, saveLedger]

/-- Claim C4: a received discovery or ledger-sync message whose `hash`
field differs from the receiver's own compatibility hash is dropped — both
the transient discovered-node cache and the durable ledger are unchanged
after handling it. -/
theorem c4_hash_gate (srcHash : String) (nowTs : Int) (genId : String) (addrIp : String)
    (msg : DiscoveryMsg) (smsg : SyncMsg) (st : BroadcastState)
    (hd : msg.hash ≠ some srcHash) (hs : smsg.hash ≠ some srcHash) :
    handleDiscoveryMessage srcHash nowTs genId addrIp msg st = st ∧
    handleLedgerSync srcHash nowTs smsg st = st := by
  constructor
  · simp [handleDiscoveryMessage, hd]
  · simp [handleLedgerSync, hs]

/-- Claim C4, witness: a concrete mismatched-hash discovery message and
ledger-sync message leave a concrete broadcast state untouched. -/
theorem c4_hash_gate_witness :
    handleDiscoveryMessage "h1" 0 "g" "1.2.3.4"
      { node_id := some "n", hash := some "h2", ip := none, port := 1
      , name := none, protocols := [] }
      { discoveredNodes := [], ledger := defaultLedger 0 } =
      { discoveredNodes := [], ledger := defaultLedger 0 } ∧
    handleLedgerSync "h1" 0 { hash := some "h2", ledger := none }
      { discoveredNodes := [], ledger := defaultLedger 0 } =
      { discoveredNodes := [], ledger := defaultLedger 0 } :=
  c4_hash_gate "h1" 0 "g" "1.2.3.4" _ _ _ (by decide) (by decide)

/-- Claim C9, counterexample: `get_discovered_nodes` does not purge the
cache. With a cache holding one entry last seen at the epoch and a
10-minute age limit at a much later instant, the returned view is empty,
yet the cache afterwards still contains the stale entry — contradicting
the claim that the cache afterwards holds only entries within the limit. -/
theorem c9_no_purge_counterexample :
    (getDiscoveredNodes 1000000 10 [(some "n9", cexStaleInfo)]).1 = [] ∧
    (getDiscoveredNodes 1000000 10 [(some "n9", cexStaleInfo)]).2 =
      [(some "n9", cexStaleInfo)] ∧
    freshInfo 1000000 10 cexStaleInfo = false := by
  refine ⟨?_, rfl, ?_⟩ <;> decide

/-- Claim C9 (amended): `get_discovered_nodes(max_age_minutes)` returns a
filtered view keyed by node id containing exactly the cache entries whose
`last_seen` is parsable (or defaulted) and within the age limit; entries
that are older or unparsable are excluded from the view, but the cache
itself is left unchanged — nothing is purged. -/
theorem c9_view_only (nowTs maxAgeMinutes : Int)
    (cache : Omap (Option String) DiscoveredInfo) :
    (∀ k info, ((k, info) ∈ (getDiscoveredNodes nowTs maxAgeMinutes cache).1 ↔
      ((k, info) ∈ cache ∧ freshInfo nowTs maxAgeMinutes info = true))) ∧
    (getDiscoveredNodes nowTs maxAgeMinutes cache).2 = cache := by
  refine ⟨?_, rfl⟩
  intro k info
  simp [getDiscoveredNodes, List.mem_filter]

/-- Claim C10: a `register_node` call whose `protocols` argument is falsy
(`None` or `[]`) and which matches an existing entry updates that entry in
place, preserving its stored protocols list while overwriting ip, port,
hash, name, updated and status (the id is untouched); only a non-empty
protocols argument replaces the stored list. -/
theorem c10_protocols_preserved (srcHash : String) (nowTs : Int) (genId : String)
    (ip : String) (port : Int) (protocols : Option (List String))
    (name : Option String) (nodeId : Option String) (lg : Ledger)
    (pre post : List NodeEntry) (n : NodeEntry)
    (hsplit : lg.nodes = pre ++ n :: post)
    (hpre : ∀ m ∈ pre, nodeMatches (nodeId.getD genId) ip port m = false)
    (hn : nodeMatches (nodeId.getD genId) ip port n = true) :
    (registerNode srcHash nowTs genId ip port protocols name nodeId lg).2.nodes =
      pre ++ updateNodeEntry srcHash nowTs ip port
        (name.getD ("node-" ++ ip ++ "-" ++ toString port)) protocols n :: post ∧
    ((protocols = none ∨ protocols = some []) →
      (updateNodeEntry srcHash nowTs ip port
        (name.getD ("node-" ++ ip ++ "-" ++ toString port)) protocols n).protocols =
        n.protocols) ∧
    (∀ l, l ≠ [] → protocols = some l →
      (updateNodeEntry srcHash nowTs ip port
        (name.getD ("node-" ++ ip ++ "-" ++ toString port)) protocols n).protocols = l) ∧
    (updateNodeEntry srcHash nowTs ip port
      (name.getD ("node-" ++ ip ++ "-" ++ toString port)) protocols n).ip = ip ∧
    (updateNodeEntry srcHash nowTs ip port
      (name.getD ("node-" ++ ip ++ "-" ++ toString port)) protocols n).port = port ∧
    (updateNodeEntry srcHash nowTs ip port
      (name.getD ("node-" ++ ip ++ "-" ++ toString port)) protocols n).hash = srcHash ∧
    (updateNodeEntry srcHash nowTs ip port
      (name.getD ("node-" ++ ip ++ "-" ++ toString port)) protocols n).name =
      name.getD ("node-" ++ ip ++ "-" ++ toString port) ∧
    (updateNodeEntry srcHash nowTs ip port
      (name.getD ("node-" ++ ip ++ "-" ++ toString port)) protocols n).updated =
      Ts.iso nowTs ∧
    (updateNodeEntry srcHash nowTs ip port
      (name.getD ("node-" ++ ip ++ "-" ++ toString port)) protocols n).status =
      "active" ∧
    (updateNodeEntry srcHash nowTs ip port
      (name.getD ("node-" ++ ip ++ "-" ++ toString port)) protocols n).id = n.id := by
  refine ⟨?_, ?_, ?_, rfl, rfl, rfl, rfl, rfl, rfl, rfl⟩
  · show (upsertNodes (nodeId.getD genId) ip port srcHash
      (name.getD ("node-" ++ ip ++ "-" ++ toString port)) protocols nowTs lg.nodes) =
      pre ++ updateNodeEntry srcHash nowTs ip port
        (name.getD ("node-" ++ ip ++ "-" ++ toString port)) protocols n :: post
    rw [hsplit]
    exact upsertNodes_match_split _ _ _ _ _ _ _ post hpre hn
  · rintro (hp | hp) <;> rw [hp] <;> rfl
  · intro l hl hp
    rw [hp]
    cases l with
    | nil => exact absurd rfl hl
    | cons a as => rfl

/-- Claim C10, witness: a concrete registration with `protocols = some []`
matching an existing node by id preserves that node's stored protocols. -/
theorem c10_protocols_preserved_witness :
    ((registerNode "h2" 50 "g" "10.0.0.5" 81 (some []) none (some "n1")
      { nodes := [cexLocalNode], protocols := [], version := some "1.0.0"
      , created_at := Ts.iso 0, updated_at := Ts.iso 0 }).2.nodes =
      [] ++ updateNodeEntry "h2" 50 "10.0.0.5" 81
        ((none : Option String).getD ("node-" ++ "10.0.0.5" ++ "-" ++ toString (81 : Int)))
        (some []) cexLocalNode :: []) ∧
    (updateNodeEntry "h2" 50 "10.0.0.5" 81
      ((none : Option String).getD ("node-" ++ "10.0.0.5" ++ "-" ++ toString (81 : Int)))
      (some []) cexLocalNode).protocols = cexLocalNode.protocols :=
  have h := c10_protocols_preserved "h2" 50 "g" "10.0.0.5" 81 (some []) none (some "n1")
    { nodes := [cexLocalNode], protocols := [], version := some "1.0.0"
    , created_at := Ts.iso 0, updated_at := Ts.iso 0 }
    [] [] cexLocalNode rfl (by intro m hm; cases hm) (by decide)
  ⟨h.1, h.2.1 (Or.inr rfl)⟩

theorem cleanNodeEntry_snd (nowTs maxAgeHours : Int) (n : NodeEntry) :
    (cleanNodeEntry nowTs maxAgeHours n).2 = markedInactive nowTs maxAgeHours n := by
  cases hu : n.updated <;> simp only [cleanNodeEntry, markedInactive, hu] <;>
    split <;> simp_all

theorem cleanNodeEntry_fst_of_not_marked {nowTs maxAgeHours : Int} {n : NodeEntry}
    (h : markedInactive nowTs maxAgeHours n = false) :
    (cleanNodeEntry nowTs maxAgeHours n).1 = n := by
  cases hu : n.updated <;> simp only [cleanNodeEntry, markedInactive, hu] at h ⊢ <;>
    first
      | cases h
      | (split <;> simp_all)

theorem cleanNodeEntry_status_inactive {nowTs maxAgeHours : Int} {n : NodeEntry}
    (hstat : n.status = "active" ∨ n.status = "inactive")
    (h : isBadTs n.updated = true ∨ 3600 * maxAgeHours < nowTs - effTs n.updated) :
    (cleanNodeEntry nowTs maxAgeHours n).1.status = "inactive" := by
  obtain ⟨i, nip, nport, nhash, nname, nps, u, nstatus⟩ := n
  simp only at hstat h ⊢
  cases u with
  | bad s => rfl
  | missing =>
    rcases h with h | h
    · simp [isBadTs] at h
    · rcases hstat with ha | ha
      · simp [cleanNodeEntry, effTs, ha]
        simp [effTs] at h
        simp [h]
      · subst ha
        simp only [cleanNodeEntry]
        split <;> rfl
  | iso t =>
    rcases h with h | h
    · simp [isBadTs] at h
    · rcases hstat with ha | ha
      · simp [cleanNodeEntry, effTs, ha]
        simp [effTs] at h
        simp [h]
      · subst ha
        simp only [cleanNodeEntry]
        split <;> rfl

theorem cleanNodeEntry_fresh {nowTs maxAgeHours : Int} {n : NodeEntry}
    (hb : isBadTs n.updated = false)
    (hfr : nowTs - effTs n.updated ≤ 3600 * maxAgeHours) :
    cleanNodeEntry nowTs maxAgeHours n = (n, false) := by
  obtain ⟨i, nip, nport, nhash, nname, nps, u, nstatus⟩ := n
  simp only at hb hfr ⊢
  cases u with
  | bad s => simp [isBadTs] at hb
  | missing =>
    simp only [cleanNodeEntry]
    split
    · rename_i hcond
      rw [Bool.and_eq_true] at hcond
      have hlt := of_decide_eq_true hcond.1
      exact absurd hlt (not_lt.mpr (by simpa [effTs] using hfr))
    · rfl
  | iso t =>
    simp only [cleanNodeEntry]
    split
    · rename_i hcond
      rw [Bool.and_eq_true] at hcond
      have hlt := of_decide_eq_true hcond.1
      exact absurd hlt (not_lt.mpr (by simpa [effTs] using hfr))
    · rfl

/-- Claim C7: `clean_inactive_nodes(max_age_hours)` assigns
`status = "inactive"` to every node whose `updated` is unparsable or
strictly older than the threshold (when statuses are well formed), leaves
every node updated within the threshold untouched, returns exactly the
number of nodes it assigned inactive, and persists the ledger exactly when
that count is positive — in particular whenever any node changed. -/
theorem c7_clean_inactive (nowTs maxAgeHours : Int) (lg : Ledger)
    (hst : ∀ n ∈ lg.nodes, n.status = "active" ∨ n.status = "inactive") :
    (cleanInactiveNodes nowTs maxAgeHours lg).2.1.nodes =
      (lg.nodes.map (cleanNodeEntry nowTs maxAgeHours)).map Prod.fst ∧
    (∀ n ∈ lg.nodes,
      (isBadTs n.updated = true ∨ 3600 * maxAgeHours < nowTs - effTs n.updated) →
      ((cleanNodeEntry nowTs maxAgeHours n).1).status = "inactive") ∧
    (∀ n ∈ lg.nodes, isBadTs n.updated = false →
      nowTs - effTs n.updated ≤ 3600 * maxAgeHours →
      (cleanNodeEntry nowTs maxAgeHours n).1 = n) ∧
    (cleanInactiveNodes nowTs maxAgeHours lg).1 =
      lg.nodes.countP (markedInactive nowTs maxAgeHours) ∧
    ((cleanInactiveNodes nowTs maxAgeHours lg).2.2 = true ↔
      0 < (cleanInactiveNodes nowTs maxAgeHours lg).1) ∧
    ((cleanInactiveNodes nowTs maxAgeHours lg).2.1.nodes ≠ lg.nodes →
      (cleanInactiveNodes nowTs maxAgeHours lg).2.2 = true) := by
  have hcnt : (cleanInactiveNodes nowTs maxAgeHours lg).1 =
      lg.nodes.countP (markedInactive nowTs maxAgeHours) := by
    have h0 : (cleanInactiveNodes nowTs maxAgeHours lg).1 =
        ((lg.nodes.map (cleanNodeEntry nowTs maxAgeHours)).filter Prod.snd).length := by
      unfold cleanInactiveNodes
      split <;> rfl
    rw [h0, List.filter_map, List.length_map, List.countP_eq_length_filter]
    congr 1
    apply List.filter_congr
    intro x _
    exact cleanNodeEntry_snd nowTs maxAgeHours x
  have hnodes : (cleanInactiveNodes nowTs maxAgeHours lg).2.1.nodes =
      (lg.nodes.map (cleanNodeEntry nowTs maxAgeHours)).map Prod.fst := by
    unfold cleanInactiveNodes
    split <;> rfl
  have hsaved : (cleanInactiveNodes nowTs maxAgeHours lg).2.2 = true ↔
      0 < (cleanInactiveNodes nowTs maxAgeHours lg).1 := by
    unfold cleanInactiveNodes
    split
    · rename_i hpos
      exact ⟨fun _ => hpos, fun _ => rfl⟩
    · rename_i hnon
      constructor
      · intro hh
        exact absurd hh (by simp)
      · intro hh
        exact absurd hh hnon
  refine ⟨hnodes, ?_, ?_, hcnt, hsaved, ?_⟩
  · intro n hn h
    exact cleanNodeEntry_status_inactive (hst n hn) h
  · intro n hn hb hfr
    rw [cleanNodeEntry_fresh hb hfr]
  · intro hneq
    rw [hsaved]
    by_contra hnon
    apply hneq
    rw [hnodes]
    have hz : lg.nodes.countP (markedInactive nowTs maxAgeHours) = 0 := by
      rcases Nat.eq_zero_or_pos (lg.nodes.countP (markedInactive nowTs maxAgeHours)) with h0 | h0
      · exact h0
      · rw [hcnt] at hnon
        exact absurd h0 hnon
    have hid : ∀ x ∈ lg.nodes, (cleanNodeEntry nowTs maxAgeHours x).1 = x := by
      intro x hx
      exact cleanNodeEntry_fst_of_not_marked (by simpa using List.countP_eq_zero.mp hz x hx)
    rw [List.map_map]
    calc lg.nodes.map (Prod.fst ∘ cleanNodeEntry nowTs maxAgeHours)
        = lg.nodes.map id := List.map_congr_left fun x hx => hid x hx
      _ = lg.nodes := List.map_id lg.nodes

/-- Claim C7, witness: a concrete three-node ledger — one stale active
node (missing `updated`, read as 2000-01-01), one fresh active node, one
node with an unparsable timestamp — swept at a 1-hour threshold. -/
theorem c7_clean_inactive_witness :
    ((cleanInactiveNodes 1000000000 1 c7Ledger).1 =
      c7Ledger.nodes.countP (markedInactive 1000000000 1)) ∧
    ((cleanInactiveNodes 1000000000 1 c7Ledger).2.2 = true ↔
      0 < (cleanInactiveNodes 1000000000 1 c7Ledger).1) ∧
    (cleanNodeEntry 1000000000 1 cexBadNode).1.status = "inactive" ∧
    (cleanNodeEntry 1000000000 1 cexFreshNode).1 = cexFreshNode :=
  have h := c7_clean_inactive 1000000000 1 c7Ledger (by decide)
  ⟨h.2.2.2.1, h.2.2.2.2.1,
    h.2.1 cexBadNode (by decide) (Or.inl (by decide)),
    h.2.2.1 cexFreshNode (by decide) (by decide) (by decide)⟩

/-- Claim C2, counterexample: the transport connection to the discovered
peer succeeds but the handshake gets no `peer_handshake_ack` (timeout /
rejection, `sendPeerHandshake` returns false); the peer nevertheless ends
up in the connected-peer set, because `_connect_to_new_peers` records the
peer as connected before the handshake and discards the handshake's
result. -/
theorem c2_handshake_counterexample :
    sendPeerHandshake (fun _ => none) "p2" = false ∧
    ((connectToNewPeers (fun _ => true) (fun _ => none) 200 cexPeerState).connectedPeers.map
      Prod.fst) = ["p2"] := by
  exact ⟨rfl, rfl⟩

/-- Claim C2 (amended): on transport connect success the peer is added to
the connected set immediately and a `peer_handshake` is sent, but the
handshake's result is discarded — the outcome of the connection pass is
identical for every handshake response (ack, rejection or timeout), and a
peer is in the connected set afterwards iff it was already connected or it
was discovered and its transport connect succeeded. -/
theorem c2_handshake_ignored (connectOk : String → Bool)
    (response response' : String → Option String) (nowTs : Int) (st : PeerState) :
    connectToNewPeers connectOk response nowTs st =
      connectToNewPeers connectOk response' nowTs st ∧
    (∀ pid, (pid ∈ ((connectToNewPeers connectOk response nowTs st).connectedPeers).map
        Prod.fst ↔
      pid ∈ st.connectedPeers.map Prod.fst ∨
        (connectOk pid = true ∧ pid ∈ st.discoveredPeers.map Prod.fst))) := by
  refine ⟨rfl, ?_⟩
  intro pid
  rw [connectToNewPeers]
  exact connect_fold_mem connectOk response nowTs st.discoveredPeers st pid

/-- Claim C5: merging a ledger with itself changes nothing: for a ledger
whose node and protocol ids are unique and whose timestamps are parsable,
the merge succeeds and the merged node list and protocol list equal the
original ones. -/
theorem c5_merge_idempotent (nowTs : Int) (lg : Ledger)
    (hnn : (lg.nodes.map NodeEntry.id).Nodup)
    (hnp : (lg.protocols.map ProtocolEntry.id).Nodup)
    (hbn : ∀ n ∈ lg.nodes, isBadTs n.updated = false)
    (hbp : ∀ p ∈ lg.protocols, isBadTs p.updated = false) :
    ∃ merged, mergeLedgers nowTs lg lg = some merged ∧
      merged.nodes = lg.nodes ∧ merged.protocols = lg.protocols := by
  have hn : lwwMergeInto NodeEntry.id NodeEntry.updated
      (dictBy NodeEntry.id lg.nodes) lg.nodes = some (dictBy NodeEntry.id lg.nodes) :=
    lwwMergeInto_self _ _ lg.nodes _ hbn
      (fun r hr _ => omLookup_dictBy_self NodeEntry.id hnn hr)
  have hp : lwwMergeInto ProtocolEntry.id ProtocolEntry.updated
      (dictBy ProtocolEntry.id lg.protocols) lg.protocols =
      some (dictBy ProtocolEntry.id lg.protocols) :=
    lwwMergeInto_self _ _ lg.protocols _ hbp
      (fun r hr _ => omLookup_dictBy_self ProtocolEntry.id hnp hr)
  refine ⟨{ nodes := omValues (dictBy NodeEntry.id lg.nodes)
          , protocols := omValues (dictBy ProtocolEntry.id lg.protocols)
          , version := some (lg.version.getD (lg.version.getD "1.0.0"))
          , created_at := match lg.created_at with | .missing => .iso nowTs | c => c
          , updated_at := .iso nowTs }, ?_, ?_, ?_⟩
  · unfold mergeLedgers
    rw [hn, hp]
    rfl
  · exact omValues_dictBy NodeEntry.id hnn
  · exact omValues_dictBy ProtocolEntry.id hnp

/-- Claim C5, witness: a concrete one-node, one-protocol ledger merged
with itself. -/
theorem c5_merge_idempotent_witness :
    ∃ merged, mergeLedgers 77 c5Ledger c5Ledger = some merged ∧
      merged.nodes = c5Ledger.nodes ∧ merged.protocols = c5Ledger.protocols :=
  c5_merge_idempotent 77 c5Ledger (by decide) (by decide) (by decide) (by decide)

theorem split_no_touch {α : Type} (key : α → Option String) {A B : List α} {r : α}
    (hn : ((A ++ r :: B).map key).Nodup) :
    (∀ x ∈ A, truthyId (key x) = false ∨ key x ≠ key r) ∧
    (∀ x ∈ B, truthyId (key x) = false ∨ key x ≠ key r) := by
  simp only [List.map_append, List.map_cons] at hn
  rw [List.nodup_append] at hn
  constructor
  · intro x hx
    right
    intro he
    exact hn.2.2 (List.mem_map.mpr ⟨x, hx, rfl⟩) (List.mem_cons.mpr (Or.inl he))
  · intro x hx
    right
    intro he
    exact (List.nodup_cons.mp hn.2.1).1 (List.mem_map.mpr ⟨x, hx, he⟩)

theorem lwwMerged_clauses {α : Type} (key : α → Option String) (upd : α → Ts)
    {lgl rgl : List α} {m' : Omap (Option String) α}
    (hnl : (lgl.map key).Nodup) (hnr : (rgl.map key).Nodup)
    (hcoh' : ∀ p ∈ m', p.1 = key p.2)
    (hspec : ∀ k, omLookup k m' =
      mergeLookupSpec key upd k (omLookup k (dictBy key lgl)) rgl) :
    (∀ r ∈ rgl, truthyId (key r) = true → (∀ l ∈ lgl, key l ≠ key r) →
      findByKey key (key r) (omValues m') = some r) ∧
    (∀ r ∈ rgl, ∀ l ∈ lgl, truthyId (key r) = true → key l = key r →
      findByKey key (key r) (omValues m') =
        some (if effTs (upd l) < effTs (upd r) then r else l)) := by
  constructor
  · intro r hr htr habs
    obtain ⟨A, B, hAB⟩ := List.append_of_mem hr
    have hnt := split_no_touch key (hAB ▸ hnr)
    have hbase : omLookup (key r) (dictBy key lgl) = none := by
      rw [omLookup_none_iff, keys_dictBy key hnl]
      intro hmem
      rcases List.mem_map.mp hmem with ⟨l, hl, he⟩
      exact habs l hl he
    rw [findByKey_omValues key hcoh', hspec (key r), hAB, hbase,
      mergeLookupSpec_single key upd hnt.1 hnt.2 htr rfl none]
  · intro r hr l hl htr hkey
    obtain ⟨A, B, hAB⟩ := List.append_of_mem hr
    have hnt := split_no_touch key (hAB ▸ hnr)
    have hbase : omLookup (key r) (dictBy key lgl) = some l := by
      rw [← hkey]
      exact omLookup_dictBy_self key hnl hl
    rw [findByKey_omValues key hcoh', hspec (key r), hAB, hbase,
      mergeLookupSpec_single key upd hnt.1 hnt.2 htr rfl (some l)]
    by_cases hc : effTs (upd l) < effTs (upd r) <;> simp [hc]

/-- Claim C1, counterexample: the source's merge does not treat a missing
`updated` as the epoch — it parses the default `2000-01-01T00:00:00`. A
local entry with a missing `updated` therefore beats a remote entry dated
1999 (strictly newer than the epoch, so under the claim's epoch rule the
missing entry must always lose): the source keeps the local port, the
claim's merge adopts the remote one. -/
theorem c1_merge_counterexample :
    (mergeLedgers 1000 cexLocalLedger cexRemoteLedger).map Ledger.nodes =
      some [cexLocalNode] ∧
    (claimMergeLedgers 1000 cexLocalLedger cexRemoteLedger).nodes = [cexRemoteNode] ∧
    cexLocalNode.port ≠ cexRemoteNode.port ∧
    claimTsValue cexLocalNode.updated < claimTsValue cexRemoteNode.updated := by
  refine ⟨?_, ?_, ?_, ?_⟩ <;> decide

/-- Claim C1 (amended): `merge_ledgers` merges nodes and protocols
independently, keyed by id: a remote entry with a present id that is
absent locally is inserted; when the id exists in both, the entry with the
strictly newer `updated` timestamp is kept (the local entry wins ties),
where a missing `updated` is read as `2000-01-01T00:00:00` — so it loses
only to entries strictly newer than that instant — and an unparsable
timestamp makes the merge raise instead of losing. In particular, a
remote copy with a newer timestamp and a different port wins, so the
merged ledger carries the remote port and timestamp. -/
theorem c1_merge_lww (nowTs : Int) (lg rg : Ledger)
    (hnl : (lg.nodes.map NodeEntry.id).Nodup)
    (hnr : (rg.nodes.map NodeEntry.id).Nodup)
    (hpl : (lg.protocols.map ProtocolEntry.id).Nodup)
    (hpr : (rg.protocols.map ProtocolEntry.id).Nodup)
    (hbln : ∀ n ∈ lg.nodes, isBadTs n.updated = false)
    (hbrn : ∀ n ∈ rg.nodes, isBadTs n.updated = false)
    (hblp : ∀ p ∈ lg.protocols, isBadTs p.updated = false)
    (hbrp : ∀ p ∈ rg.protocols, isBadTs p.updated = false) :
    ∃ merged, mergeLedgers nowTs lg rg = some merged ∧
      (∀ r ∈ rg.nodes, truthyId r.id = true → (∀ l ∈ lg.nodes, l.id ≠ r.id) →
        findByKey NodeEntry.id r.id merged.nodes = some r) ∧
      (∀ r ∈ rg.nodes, ∀ l ∈ lg.nodes, truthyId r.id = true → l.id = r.id →
        findByKey NodeEntry.id r.id merged.nodes =
          some (if effTs l.updated < effTs r.updated then r else l)) ∧
      (∀ r ∈ rg.protocols, truthyId r.id = true → (∀ l ∈ lg.protocols, l.id ≠ r.id) →
        findByKey ProtocolEntry.id r.id merged.protocols = some r) ∧
      (∀ r ∈ rg.protocols, ∀ l ∈ lg.protocols, truthyId r.id = true → l.id = r.id →
        findByKey ProtocolEntry.id r.id merged.protocols =
          some (if effTs l.updated < effTs r.updated then r else l)) := by
  obtain ⟨nmap, hne, hncoh, hnspec⟩ :=
    lwwMergeInto_char NodeEntry.id NodeEntry.updated rg.nodes (dictBy NodeEntry.id lg.nodes)
      (fun p hp => hbln p.2 (mem_dictBy NodeEntry.id hnl hp).2)
      hbrn
      (fun p hp => (mem_dictBy NodeEntry.id hnl hp).1)
  obtain ⟨pmap, hpe, hpcoh, hpspec⟩ :=
    lwwMergeInto_char ProtocolEntry.id ProtocolEntry.updated rg.protocols
      (dictBy ProtocolEntry.id lg.protocols)
      (fun p hp => hblp p.2 (mem_dictBy ProtocolEntry.id hpl hp).2)
      hbrp
      (fun p hp => (mem_dictBy ProtocolEntry.id hpl hp).1)
  have hclN := lwwMerged_clauses NodeEntry.id NodeEntry.updated hnl hnr hncoh hnspec
  have hclP := lwwMerged_clauses ProtocolEntry.id ProtocolEntry.updated hpl hpr hpcoh hpspec
  refine ⟨{ nodes := omValues nmap
          , protocols := omValues pmap
          , version := some (rg.version.getD (lg.version.getD "1.0.0"))
          , created_at := match lg.created_at with | .missing => .iso nowTs | c => c
          , updated_at := .iso nowTs },
    ?_, hclN.1, hclN.2, hclP.1, hclP.2⟩
  unfold mergeLedgers
  rw [hne, hpe]
  rfl

/-- Claim C1, witness: the local ledger holds node x updated at t=10; the
remote one holds node x updated at t=20 with a different port, plus a
remote-only node y; the merged ledger carries the remote copy of x (its
port and timestamp) and the inserted node y. -/
theorem c1_merge_lww_witness :
    ∃ merged, mergeLedgers 99 c1LocalLedger c1RemoteLedger = some merged ∧
      (∀ r ∈ c1RemoteLedger.nodes, truthyId r.id = true →
        (∀ l ∈ c1LocalLedger.nodes, l.id ≠ r.id) →
        findByKey NodeEntry.id r.id merged.nodes = some r) ∧
      (∀ r ∈ c1RemoteLedger.nodes, ∀ l ∈ c1LocalLedger.nodes, truthyId r.id = true →
        l.id = r.id →
        findByKey NodeEntry.id r.id merged.nodes =
          some (if effTs l.updated < effTs r.updated then r else l)) ∧
      (∀ r ∈ c1RemoteLedger.protocols, truthyId r.id = true →
        (∀ l ∈ c1LocalLedger.protocols, l.id ≠ r.id) →
        findByKey ProtocolEntry.id r.id merged.protocols = some r) ∧
      (∀ r ∈ c1RemoteLedger.protocols, ∀ l ∈ c1LocalLedger.protocols,
        truthyId r.id = true → l.id = r.id →
        findByKey ProtocolEntry.id r.id merged.protocols =
          some (if effTs l.updated < effTs r.updated then r else l)) :=
  c1_merge_lww 99 c1LocalLedger c1RemoteLedger (by decide) (by decide) (by decide)
    (by decide) (by decide) (by decide) (by decide) (by decide)

/-- Claim C8: the combined source hash is deterministic — it depends only
on the set of (path, content) pairs, not on the enumeration order of an
unchanged tree, so two byte-identical trees give identical combined
hashes — and, provided the per-file and final hash primitives are
collision-free on the inputs involved (they are fixed-width external hash
functions, modeled abstractly), changing the content of one scanned file
changes the combined hash. -/
theorem c8_hash_determinism (hfile hfinal : List Nat → List Nat)
    (files files' : List (String × List Nat)) :
    (List.Perm files files' → (files.map Prod.fst).Nodup →
      (srcDirectoryHash hfile hfinal files).1 = (srcDirectoryHash hfile hfinal files').1) ∧
    (∀ (pre post : List (String × List Nat)) (p : String) (c c' : List Nat),
      files = pre ++ (p, c) :: post → files' = pre ++ (p, c') :: post →
      (files.map Prod.fst).Nodup →
      hfile c ≠ hfile c' → (hfile c).length = (hfile c').length →
      hfile c ≠ [] → hfile c' ≠ [] → Function.Injective hfinal →
      (srcDirectoryHash hfile hfinal files).1 ≠ (srcDirectoryHash hfile hfinal files').1) := by
  constructor
  · intro hp hn
    have hn' : (files'.map Prod.fst).Nodup := ((hp.map Prod.fst).nodup_iff).mp hn
    have hperm : List.Perm (hashDict hfile files) (hashDict hfile files') := by
      rw [hashDict_eq_filterMap hfile hn, hashDict_eq_filterMap hfile hn']
      exact hp.filterMap _
    have hkeys : ((hashDict hfile files).map Prod.fst).Nodup := by
      rw [hashDict_eq_filterMap hfile hn]
      exact nodup_keys_hash_filterMap hn
    show hfinal (combinedOf (hashDict hfile files)) =
      hfinal (combinedOf (hashDict hfile files'))
    rw [combinedOf_perm hperm hkeys]
  · intro pre post p c c' hf hf' hn hne hlen hc hc' hinj
    subst hf
    subst hf'
    have hn' : ((pre ++ (p, c') :: post).map Prod.fst).Nodup := by
      simp only [List.map_append, List.map_cons] at hn ⊢
      exact hn
    have hd : hashDict hfile (pre ++ (p, c) :: post) =
        (pre.filterMap fun f => if hfile f.2 = [] then none else some (f.1, hfile f.2)) ++
          (p, hfile c) ::
          (post.filterMap fun f => if hfile f.2 = [] then none else some (f.1, hfile f.2)) := by
      rw [hashDict_eq_filterMap hfile hn, List.filterMap_append, List.filterMap_cons]
      simp [hc]
    have hd' : hashDict hfile (pre ++ (p, c') :: post) =
        (pre.filterMap fun f => if hfile f.2 = [] then none else some (f.1, hfile f.2)) ++
          (p, hfile c') ::
          (post.filterMap fun f => if hfile f.2 = [] then none else some (f.1, hfile f.2)) := by
      rw [hashDict_eq_filterMap hfile hn', List.filterMap_append, List.filterMap_cons]
      simp [hc']
    have hkeq : (hashDict hfile (pre ++ (p, c) :: post)).map Prod.fst =
        (hashDict hfile (pre ++ (p, c') :: post)).map Prod.fst := by
      rw [hd, hd']
      simp
    have hS : sortedPathsOf (hashDict hfile (pre ++ (p, c) :: post)) =
        sortedPathsOf (hashDict hfile (pre ++ (p, c') :: post)) := by
      unfold sortedPathsOf
      rw [hkeq]
    have hkn : ((hashDict hfile (pre ++ (p, c) :: post)).map Prod.fst).Nodup := by
      rw [hashDict_eq_filterMap hfile hn]
      exact nodup_keys_hash_filterMap hn
    have hSperm : List.Perm (sortedPathsOf (hashDict hfile (pre ++ (p, c) :: post)))
        ((hashDict hfile (pre ++ (p, c) :: post)).map Prod.fst) :=
      List.perm_insertionSort _ _
    have hSnodup : (sortedPathsOf (hashDict hfile (pre ++ (p, c) :: post))).Nodup :=
      hSperm.nodup_iff.mpr hkn
    have hpS : p ∈ sortedPathsOf (hashDict hfile (pre ++ (p, c) :: post)) := by
      apply hSperm.mem_iff.mpr
      rw [hd]
      simp
    obtain ⟨A, B, hSAB⟩ := List.append_of_mem hpS
    have hpA : p ∉ A := by
      intro hA
      rw [hSAB, List.nodup_append] at hSnodup
      exact hSnodup.2.2 hA (List.mem_cons_self p B)
    have hpB : p ∉ B := by
      intro hB
      rw [hSAB, List.nodup_append] at hSnodup
      exact (List.nodup_cons.mp hSnodup.2.1).1 hB
    have hppre : p ∉ (pre.filterMap fun f =>
        if hfile f.2 = [] then none else some (f.1, hfile f.2)).map Prod.fst := by
      intro hmem
      have h2 := mem_keys_hash_filterMap hmem
      simp only [List.map_append, List.map_cons] at hn
      rw [List.nodup_append] at hn
      exact hn.2.2 h2 (List.mem_cons_self p _)
    have hlook : omLookup p (hashDict hfile (pre ++ (p, c) :: post)) = some (hfile c) := by
      rw [hd, omLookup_append_skip hppre]
      simp [omLookup]
    have hlook' : omLookup p (hashDict hfile (pre ++ (p, c') :: post)) =
        some (hfile c') := by
      rw [hd', omLookup_append_skip hppre]
      simp [omLookup]
    have hoff : ∀ q, q ≠ p →
        omLookup q (hashDict hfile (pre ++ (p, c) :: post)) =
        omLookup q (hashDict hfile (pre ++ (p, c') :: post)) := by
      intro q hq
      rw [hd, hd']
      exact omLookup_middle_ne hq _ _ _ _
    have hA_eq : (A.map fun q =>
        (omLookup q (hashDict hfile (pre ++ (p, c) :: post))).getD []) =
        A.map fun q => (omLookup q (hashDict hfile (pre ++ (p, c') :: post))).getD [] :=
      List.map_congr_left fun q hq => by
        rw [hoff q fun hqq => hpA (hqq ▸ hq)]
    have hB_eq : (B.map fun q =>
        (omLookup q (hashDict hfile (pre ++ (p, c) :: post))).getD []) =
        B.map fun q => (omLookup q (hashDict hfile (pre ++ (p, c') :: post))).getD [] :=
      List.map_congr_left fun q hq => by
        rw [hoff q fun hqq => hpB (hqq ▸ hq)]
    have hcombined : combinedOf (hashDict hfile (pre ++ (p, c) :: post)) ≠
        combinedOf (hashDict hfile (pre ++ (p, c') :: post)) := by
      unfold combinedOf
      rw [← hS, hSAB]
      simp only [List.map_append, List.map_cons, List.flatten_append, List.flatten_cons]
      rw [hlook, hlook', hA_eq, hB_eq]
      intro heq
      have h2 := List.append_cancel_left heq
      have h3 := (List.append_inj h2 hlen).1
      exact hne h3
    intro hfe
    exact hcombined (hinj hfe)

/-- Claim C8, witness: a two-file tree hashed in both enumeration orders
gives the same combined hash, and a one-file tree whose file content
changes gives a different combined hash (with concrete injective hash
primitives standing in for xxh3). -/
theorem c8_hash_determinism_witness :
    ((srcDirectoryHash (fun c => 7 :: c) (fun x => x) [("a", [1]), ("b", [2])]).1 =
      (srcDirectoryHash (fun c => 7 :: c) (fun x => x) [("b", [2]), ("a", [1])]).1) ∧
    ((srcDirectoryHash (fun c => 7 :: c) (fun x => x) [("a", [1])]).1 ≠
      (srcDirectoryHash (fun c => 7 :: c) (fun x => x) [("a", [2])]).1) :=
  ⟨(c8_hash_determinism (fun c => 7 :: c) (fun x => x) [("a", [1]), ("b", [2])]
      [("b", [2]), ("a", [1])]).1 (by decide) (by decide),
   (c8_hash_determinism (fun c => 7 :: c) (fun x => x) [("a", [1])] [("a", [2])]).2
      [] [] "a" [1] [2] rfl rfl (by decide) (by decide) (by decide) (by decide)
      (by decide) fun _ _ h => h⟩

/-- Claim C6: node entries stay unique by id across `register_node` calls;
a registration matching an existing entry by id or by the same (ip, port)
pair updates that entry in place without changing the node count; and
registering twice with the same id but different ip/port starting from an
empty ledger yields exactly one entry carrying the latest ip, port,
updated (and hash, status) values. -/
theorem c6_register_upsert
    (srcHash : String) (nowTs : Int) (genId : String) (ip : String) (port : Int)
    (protocols : Option (List String)) (name : Option String) (nodeId : Option String)
    (lg : Ledger)
    (srcHash₁ srcHash₂ : String) (t₀ t₁ t₂ : Int) (g₁ g₂ : String)
    (ip₁ ip₂ : String) (port₁ port₂ : Int)
    (ps₁ ps₂ : Option (List String)) (nm₁ nm₂ : Option String) (i : String) :
    ((lg.nodes.map NodeEntry.id).Nodup →
      ((registerNode srcHash nowTs genId ip port protocols name nodeId lg).2.nodes.map
        NodeEntry.id).Nodup) ∧
    ((∃ n ∈ lg.nodes, nodeMatches (nodeId.getD genId) ip port n = true) →
      (registerNode srcHash nowTs genId ip port protocols name nodeId lg).2.nodes.length =
        lg.nodes.length) ∧
    (∃ n : NodeEntry,
      (registerNode srcHash₂ t₂ g₂ ip₂ port₂ ps₂ nm₂ (some i)
        (registerNode srcHash₁ t₁ g₁ ip₁ port₁ ps₁ nm₁ (some i) (defaultLedger t₀)).2).2.nodes
        = [n] ∧
      n.id = some i ∧ n.ip = ip₂ ∧ n.port = port₂ ∧ n.updated = Ts.iso t₂ ∧
      n.hash = srcHash₂ ∧ n.status = "active") := by
  refine ⟨?_, ?_, ?_⟩
  · intro hn
    exact nodup_ids_upsertNodes hn
  · intro hex
    exact length_upsertNodes_match hex
  · refine ⟨updateNodeEntry srcHash₂ t₂ ip₂ port₂
      (nm₂.getD ("node-" ++ ip₂ ++ "-" ++ toString port₂)) ps₂
      (createNodeEntry i ip₁ port₁ srcHash₁
        (nm₁.getD ("node-" ++ ip₁ ++ "-" ++ toString port₁)) ps₁ t₁),
      ?_, rfl, rfl, rfl, rfl, rfl, rfl⟩
    show upsertNodes i ip₂ port₂ srcHash₂ (nm₂.getD ("node-" ++ ip₂ ++ "-" ++ toString port₂))
      ps₂ t₂ (upsertNodes i ip₁ port₁ srcHash₁
        (nm₁.getD ("node-" ++ ip₁ ++ "-" ++ toString port₁)) ps₁ t₁ []) = _
    simp [upsertNodes, nodeMatches, createNodeEntry]

/-- Claim C6, witness: registering twice with id "x" and different ip/port
from an empty ledger; the uniqueness and update-in-place clauses applied to
a concrete one-node ledger. -/
theorem c6_register_upsert_witness :
    (((registerNode "h" 9 "g" "10.0.0.1" 1 none none (some "n1")
      { nodes := [cexLocalNode], protocols := [], version := some "1.0.0"
      , created_at := Ts.iso 0, updated_at := Ts.iso 0 }).2.nodes.map
        NodeEntry.id).Nodup) ∧
    ((registerNode "h" 9 "g" "10.0.0.1" 1 none none (some "n1")
      { nodes := [cexLocalNode], protocols := [], version := some "1.0.0"
      , created_at := Ts.iso 0, updated_at := Ts.iso 0 }).2.nodes.length =
      [cexLocalNode].length) ∧
    (∃ n : NodeEntry,
      (registerNode "h2" 8 "g2" "10.0.0.3" 3 none none (some "x")
        (registerNode "h1" 7 "g1" "10.0.0.2" 2 none none (some "x")
          (defaultLedger 0)).2).2.nodes = [n] ∧
      n.id = some "x" ∧ n.ip = "10.0.0.3" ∧ n.port = 3 ∧ n.updated = Ts.iso 8 ∧
      n.hash = "h2" ∧ n.status = "active") :=
  have h := c6_register_upsert "h" 9 "g" "10.0.0.1" 1 none none (some "n1")
    { nodes := [cexLocalNode], protocols := [], version := some "1.0.0"
    , created_at := Ts.iso 0, updated_at := Ts.iso 0 }
    "h1" "h2" 0 7 8 "g1" "g2" "10.0.0.2" "10.0.0.3" 2 3 none none none none "x"
  ⟨h.1 (by decide), h.2.1 ⟨cexLocalNode, by decide, by decide⟩, h.2.2⟩
